import Mathlib

/-!
# Verification of the sniffly log-analytics pipeline

A shallow embedding, in Lean 4, of the core of the `sniffly` repository:

* the streaming merge and final sort of `sniffly/core/processor.py`
  (`_merge_message_group`, `_merge_and_deduplicate_streaming`,
  `_group_into_interactions`, `_handle_split_interactions`,
  `_reconcile_tool_count`, `_infer_tool_count_from_content`, phase 12 of
  `process_logs`),
* the in-memory LRU cache of `sniffly/utils/memory_cache.py`,
* the on-disk metadata cache of `sniffly/utils/local_cache.py`,
* the cross-project aggregator of `sniffly/core/global_aggregator.py`.

Python strings are modelled by `String`, compared by code points exactly as
CPython compares `str` values; Python dict entries that may be absent are
modelled by `Option` or, where the code only ever tests truthiness, by a
default value (`""`, `[]`, `0`) that is falsy in Python.  Wall-clock times
are naturals (seconds); file modification times are naturals (milliseconds).
-/

namespace Sniffly

/-! ## String primitives

CPython compares `str` lexicographically by code point; these executable
primitives mirror `<`, `<=`, `str.join`, `str.startswith` and the `in`
substring test, over `String.data`. -/

/-- Code-point lexicographic `<` on char lists (Python string `<`). -/
def charsLt : List Char → List Char → Bool
  | [], [] => false
  | [], _ :: _ => true
  | _ :: _, [] => false
  | a :: as, b :: bs =>
    if a.toNat < b.toNat then true
    else if b.toNat < a.toNat then false
    else charsLt as bs

/-- Python string `<`. -/
def strLt (a b : String) : Bool := charsLt a.data b.data

/-- Python string `<=` (total order: `a <= b` iff `not (b < a)`). -/
def strLe (a b : String) : Bool := !(strLt b a)

/-- Does the char list `s` begin with `pre`?  (Python `str.startswith`.) -/
def charsBegin : List Char → List Char → Bool
  | [], _ => true
  | _ :: _, [] => false
  | a :: as, b :: bs => a == b && charsBegin as bs

/-- Python `s.startswith(pre)`. -/
def strBegins (s pre : String) : Bool := charsBegin pre.data s.data

/-- Does `needle` occur as a contiguous run inside `hay`? -/
def charsContain (needle : List Char) : List Char → Bool
  | [] => charsBegin needle []
  | c :: rest => charsBegin needle (c :: rest) || charsContain needle rest

/-- Python `sub in hay` on strings. -/
def strContains (hay sub : String) : Bool := charsContain sub.data hay.data

/-- Python `sep.join(parts)`. -/
def pyJoin (sep : String) : List String → String
  | [] => ""
  | [x] => x
  | x :: y :: rest => x ++ sep ++ pyJoin sep (y :: rest)

/-- Python `max` over a list of strings (`""` for the empty list, which the
source never passes). -/
def strListMax : List String → String
  | [] => ""
  | t :: rest => rest.foldl (fun a b => if strLt a b then b else a) t

/-- Python `min` over a list of strings (`""` for the empty list, which the
source never passes). -/
def strListMin : List String → String
  | [] => ""
  | t :: rest => rest.foldl (fun a b => if strLt b a then b else a) t

/-! ### Order lemmas for the string primitives -/

theorem charsLt_cons_cons (x y : Char) (as bs : List Char) :
    charsLt (x :: as) (y :: bs) =
      if x.toNat < y.toNat then true
      else if y.toNat < x.toNat then false
      else charsLt as bs := rfl

theorem charsLt_irrefl : ∀ l : List Char, charsLt l l = false := by
  intro l
  induction l with
  | nil => rfl
  | cons a as ih => simp [charsLt_cons_cons, ih]

theorem char_toNat_inj {a b : Char} (h : a.toNat = b.toNat) : a = b :=
  Char.ext (UInt32.ext h)

theorem charsLt_trans : ∀ {a b c : List Char},
    charsLt a b = true → charsLt b c = true → charsLt a c = true := by
  intro a
  induction a with
  | nil =>
    intro b c hab hbc
    cases b with
    | nil => exact absurd hab (by simp [charsLt])
    | cons y bs =>
      cases c with
      | nil => exact absurd hbc (by simp [charsLt])
      | cons z cs => rfl
  | cons x as ih =>
    intro b c hab hbc
    cases b with
    | nil => exact absurd hab (by simp [charsLt])
    | cons y bs =>
      cases c with
      | nil => exact absurd hbc (by simp [charsLt])
      | cons z cs =>
        rw [charsLt_cons_cons] at hab hbc ⊢
        rcases Nat.lt_trichotomy x.toNat y.toNat with h1 | h1 | h1
        · rcases Nat.lt_trichotomy y.toNat z.toNat with h2 | h2 | h2
          · rw [if_pos (Nat.lt_trans h1 h2)]
          · rw [if_pos (show x.toNat < z.toNat by omega)]
          · rw [if_neg (show ¬ y.toNat < z.toNat by omega), if_pos h2] at hbc
            exact absurd hbc (by simp)
        · rcases Nat.lt_trichotomy y.toNat z.toNat with h2 | h2 | h2
          · rw [if_pos (show x.toNat < z.toNat by omega)]
          · rw [if_neg (show ¬ x.toNat < y.toNat by omega),
                if_neg (show ¬ y.toNat < x.toNat by omega)] at hab
            rw [if_neg (show ¬ y.toNat < z.toNat by omega),
                if_neg (show ¬ z.toNat < y.toNat by omega)] at hbc
            rw [if_neg (show ¬ x.toNat < z.toNat by omega),
                if_neg (show ¬ z.toNat < x.toNat by omega)]
            exact ih hab hbc
          · rw [if_neg (show ¬ y.toNat < z.toNat by omega), if_pos h2] at hbc
            exact absurd hbc (by simp)
        · rw [if_neg (show ¬ x.toNat < y.toNat by omega), if_pos h1] at hab
          exact absurd hab (by simp)

theorem charsLt_total : ∀ a b : List Char,
    charsLt a b = true ∨ charsLt b a = true ∨ a = b := by
  intro a
  induction a with
  | nil =>
    intro b
    cases b with
    | nil => right; right; rfl
    | cons y bs => left; rfl
  | cons x as ih =>
    intro b
    cases b with
    | nil => right; left; rfl
    | cons y bs =>
      rcases Nat.lt_trichotomy x.toNat y.toNat with h1 | h1 | h1
      · left; rw [charsLt_cons_cons, if_pos h1]
      · have hxy : x = y := char_toNat_inj h1
        rcases ih bs with h | h | h
        · left
          rw [charsLt_cons_cons, if_neg (show ¬ x.toNat < y.toNat by omega),
              if_neg (show ¬ y.toNat < x.toNat by omega)]
          exact h
        · right; left
          rw [charsLt_cons_cons, if_neg (show ¬ y.toNat < x.toNat by omega),
              if_neg (show ¬ x.toNat < y.toNat by omega)]
          exact h
        · right; right; rw [hxy, h]
      · right; left; rw [charsLt_cons_cons, if_pos h1]

theorem charsLt_asymm {a b : List Char} (h : charsLt a b = true) : charsLt b a = false := by
  cases hcase : charsLt b a
  · rfl
  · have := charsLt_trans h hcase
    rw [charsLt_irrefl] at this
    exact Bool.noConfusion this

theorem strLe_refl (a : String) : strLe a a = true := by
  simp [strLe, strLt, charsLt_irrefl]

theorem strLe_total (a b : String) : strLe a b = true ∨ strLe b a = true := by
  unfold strLe strLt
  rcases charsLt_total a.data b.data with h | h | h
  · left; simp [charsLt_asymm h]
  · right; simp [charsLt_asymm h]
  · left; simp [h, charsLt_irrefl]

theorem strLe_trans {a b c : String} (hab : strLe a b = true) (hbc : strLe b c = true) :
    strLe a c = true := by
  unfold strLe strLt at *
  simp only [Bool.not_eq_true'] at hab hbc ⊢
  cases hca : charsLt c.data a.data
  · rfl
  · rcases charsLt_total a.data b.data with h | h | h
    · have := charsLt_trans hca h
      rw [this] at hbc
      exact Bool.noConfusion hbc
    · rw [h] at hab
      exact Bool.noConfusion hab
    · rw [← h] at hbc
      rw [hca] at hbc
      exact Bool.noConfusion hbc

theorem strLe_of_empty_right {b : String} (h : strLe b "" = true) : b = "" := by
  unfold strLe strLt at h
  simp only [Bool.not_eq_true'] at h
  cases hb : b.data with
  | nil =>
    cases b with
    | mk data => simp at hb; rw [hb]
  | cons c cs =>
    rw [hb] at h
    simp [charsLt] at h

/-! ### Join / containment lemmas -/

theorem charsBegin_append (n v : List Char) : charsBegin n (n ++ v) = true := by
  induction n with
  | nil => rfl
  | cons a as ih => simp [charsBegin, ih]

theorem charsContain_begin {n l : List Char} (h : charsBegin n l = true) :
    charsContain n l = true := by
  cases l with
  | nil =>
    unfold charsContain
    exact h
  | cons c cs =>
    unfold charsContain
    rw [h]
    rfl

theorem charsContain_of_decomp (n u v : List Char) :
    charsContain n (u ++ n ++ v) = true := by
  induction u with
  | nil =>
    simp only [List.nil_append]
    exact charsContain_begin (charsBegin_append n v)
  | cons c cs ih =>
    simp only [List.cons_append]
    unfold charsContain
    rw [Bool.or_eq_true]
    right
    simpa using ih

theorem pyJoin_decomp {s : String} {parts : List String} (sep : String) (h : s ∈ parts) :
    ∃ u v : List Char, (pyJoin sep parts).data = u ++ s.data ++ v := by
  induction parts with
  | nil => simp at h
  | cons x rest ih =>
    cases rest with
    | nil =>
      simp at h
      exact ⟨[], [], by simp [pyJoin, h]⟩
    | cons y ys =>
      rcases List.mem_cons.mp h with h1 | h2
      · subst h1
        refine ⟨[], (sep ++ pyJoin sep (y :: ys)).data, ?_⟩
        simp [pyJoin, String.data_append]
      · rcases ih h2 with ⟨u, v, huv⟩
        refine ⟨(x ++ sep).data ++ u, v, ?_⟩
        simp [pyJoin, String.data_append, huv]

theorem strContains_of_mem_join {s : String} {parts : List String} (sep : String)
    (h : s ∈ parts) : strContains (pyJoin sep parts) s = true := by
  rcases pyJoin_decomp sep h with ⟨u, v, huv⟩
  unfold strContains
  rw [huv]
  exact charsContain_of_decomp s.data u v

/-! ### Fold lemmas for Python `max`/`min` over strings -/

theorem foldl_choice_mem (f : String → String → String)
    (hf : ∀ a b, f a b = a ∨ f a b = b) :
    ∀ (bs : List String) (t : String), bs.foldl f t ∈ t :: bs := by
  intro bs
  induction bs with
  | nil => intro t; simp
  | cons b bs ih =>
    intro t
    simp only [List.foldl_cons]
    rcases hf t b with h | h
    · rw [h]
      rcases List.mem_cons.mp (ih t) with h2 | h2
      · rw [h2]; exact List.mem_cons_self t _
      · exact List.mem_cons_of_mem t (List.mem_cons_of_mem b h2)
    · rw [h]
      rcases List.mem_cons.mp (ih b) with h2 | h2
      · rw [h2]; exact List.mem_cons_of_mem t (List.mem_cons_self b _)
      · exact List.mem_cons_of_mem t (List.mem_cons_of_mem b h2)

theorem strListMax_mem (l : List String) (hl : l ≠ []) : strListMax l ∈ l := by
  cases l with
  | nil => exact absurd rfl hl
  | cons t rest =>
    unfold strListMax
    exact foldl_choice_mem _ (by
      intro a b
      by_cases h : strLt a b
      · right; simp [h]
      · left; simp [h]) rest t

theorem strLe_max_step_left (y z : String) : strLe y (if strLt y z then z else y) = true := by
  by_cases h : strLt y z
  · rw [if_pos h]
    unfold strLe strLt at *
    simp [charsLt_asymm h]
  · rw [if_neg h]
    exact strLe_refl y

theorem strLe_max_step_right (y z : String) : strLe z (if strLt y z then z else y) = true := by
  by_cases h : strLt y z
  · rw [if_pos h]
    exact strLe_refl z
  · rw [if_neg h]
    unfold strLe strLt at *
    simpa using h

theorem foldl_max_ub :
    ∀ (bs : List String) (t x : String), x ∈ t :: bs →
      strLe x (bs.foldl (fun a b => if strLt a b then b else a) t) = true := by
  intro bs
  induction bs with
  | nil =>
    intro t x hx
    rw [List.mem_singleton] at hx
    subst hx
    exact strLe_refl x
  | cons b bs ih =>
    intro t x hx
    simp only [List.foldl_cons]
    rcases List.mem_cons.mp hx with h | h
    · subst h
      exact strLe_trans (strLe_max_step_left x b) (ih _ _ (List.mem_cons_self _ _))
    · rcases List.mem_cons.mp h with h2 | h2
      · subst h2
        exact strLe_trans (strLe_max_step_right t x) (ih _ _ (List.mem_cons_self _ _))
      · exact ih _ _ (List.mem_cons_of_mem _ h2)

theorem strListMax_le (l : List String) (x : String) (hx : x ∈ l) :
    strLe x (strListMax l) = true := by
  cases l with
  | nil => simp at hx
  | cons t rest =>
    unfold strListMax
    exact foldl_max_ub rest t x hx

theorem strListMin_mem (l : List String) (hl : l ≠ []) : strListMin l ∈ l := by
  cases l with
  | nil => exact absurd rfl hl
  | cons t rest =>
    unfold strListMin
    exact foldl_choice_mem _ (by
      intro a b
      by_cases h : strLt b a
      · right; simp [h]
      · left; simp [h]) rest t

theorem strLe_min_step_left (y z : String) : strLe (if strLt z y then z else y) y = true := by
  by_cases h : strLt z y
  · rw [if_pos h]
    unfold strLe strLt at *
    simp [charsLt_asymm h]
  · rw [if_neg h]
    exact strLe_refl y

theorem strLe_min_step_right (y z : String) : strLe (if strLt z y then z else y) z = true := by
  by_cases h : strLt z y
  · rw [if_pos h]
    exact strLe_refl z
  · rw [if_neg h]
    unfold strLe strLt at *
    simpa using h

theorem foldl_min_lb :
    ∀ (bs : List String) (t x : String), x ∈ t :: bs →
      strLe (bs.foldl (fun a b => if strLt b a then b else a) t) x = true := by
  intro bs
  induction bs with
  | nil =>
    intro t x hx
    rw [List.mem_singleton] at hx
    subst hx
    exact strLe_refl x
  | cons b bs ih =>
    intro t x hx
    simp only [List.foldl_cons]
    rcases List.mem_cons.mp hx with h | h
    · subst h
      exact strLe_trans (ih _ _ (List.mem_cons_self _ _)) (strLe_min_step_left x b)
    · rcases List.mem_cons.mp h with h2 | h2
      · subst h2
        exact strLe_trans (ih _ _ (List.mem_cons_self _ _)) (strLe_min_step_right t x)
      · exact ih _ _ (List.mem_cons_of_mem _ h2)

theorem strListMin_le (l : List String) (x : String) (hx : x ∈ l) :
    strLe (strListMin l) x = true := by
  cases l with
  | nil => simp at hx
  | cons t rest =>
    unfold strListMin
    exact foldl_min_lb rest t x hx

/-! ## Data model

The processed message dictionaries produced by
`ClaudeLogProcessor._extract_message` (`sniffly/core/processor.py`).  A dict
key that may be absent and is only ever tested for truthiness is modelled by
its Python-falsy default (`""`, `[]`, `none`).  The preserved raw entry
`msg["_raw_data"]["message"]` is modelled by `RawMessage`; `_raw_data`
without a `message` key (or absent altogether) is `none`. -/

/-- The input payload of one tool invocation: the dict keys the source reads
(`edits` is only read through `len(...)`, so it is kept as a count). -/
structure ToolInput where
  edits : Nat := 0
  file_path : String := "unknown"
  command : String := ""
  description : String := "task"
deriving DecidableEq, Repr

/-- One entry of a message's `tools` list: `{name, input, id}`. -/
structure ToolUse where
  name : String := "unknown"
  input : ToolInput := {}
  id : String := ""
deriving DecidableEq, Repr

/-- The `tokens` dict of a processed message. -/
structure TokenUsage where
  input : Nat := 0
  output : Nat := 0
  cache_creation : Nat := 0
  cache_read : Nat := 0
deriving DecidableEq, Repr

/-- One element of `_raw_data["message"]["content"]`: a content block with a
`type` tag and the keys the source reads off it. -/
structure RawBlock where
  btype : String := ""
  text : String := ""
  name : String := ""
  input : ToolInput := {}
  id : String := ""
deriving DecidableEq, Repr

/-- `_raw_data["message"]`: the raw provider message preserved next to the
processed one.  `id`/`model` are `""` when the key is absent (falsy). -/
structure RawMessage where
  id : String := ""
  model : String := ""
  content : List RawBlock := []
deriving DecidableEq, Repr

/-- A processed message dict.  `type` is the classified message type
(`user` / `assistant` / `task` / `summary` / `compact_summary`);
`message_id` is set only for entries whose raw message carried an `id`;
`start_timestamp` and the `interaction_*` keys are added by later pipeline
phases and default to Python-falsy values before that. -/
structure Message where
  session_id : String := ""
  type : String := ""
  timestamp : String := ""
  model : String := "N/A"
  content : String := ""
  tools : List ToolUse := []
  tokens : TokenUsage := {}
  uuid : String := ""
  is_sidechain : Bool := false
  has_tool_result : Bool := false
  error : Bool := false
  message_id : String := ""
  raw : Option RawMessage := none
  start_timestamp : String := ""
  interaction_tool_count : Nat := 0
  interaction_model : String := ""
  interaction_assistant_steps : Nat := 0
deriving DecidableEq, Repr

/-! ## Phase 12: final sort (`process_logs`, processor.py lines 322–325)

`final_messages.sort(key=lambda x: x["timestamp"] if x["timestamp"] else "",
reverse=True)` — a stable sort, descending by timestamp string, followed by
`if limit: final_messages = final_messages[:limit]`.  CPython's sort is
stable; it is modelled by the stable `List.insertionSort`.  `limit = 0`
models Python `limit=None` (both falsy, both skip the truncation). -/

/-- The sort key: `x["timestamp"] if x["timestamp"] else ""` (the identity,
since an absent timestamp is already `""`). -/
def sortTimestampKey (m : Message) : String :=
  if m.timestamp = "" then "" else m.timestamp

/-- Sort order used by phase 12: `a` may precede `b` iff `key b <= key a`
(descending; with `reverse=True` a stable sort keeps equal keys in input
order, exactly like `insertionSort` with this non-strict relation). -/
def phase12Rel (a b : Message) : Prop :=
  strLe (sortTimestampKey b) (sortTimestampKey a) = true

instance : DecidableRel phase12Rel := fun a b => by
  unfold phase12Rel
  infer_instance

/-- Phase 12 of `process_logs`: sort descending by timestamp, then apply the
optional result limit. -/
def phase12SortAndLimit (msgs : List Message) (limit : Nat) : List Message :=
  let sorted := List.insertionSort phase12Rel msgs
  if limit ≠ 0 then sorted.take limit else sorted

/-! ## Phase 3: streaming merge
(`_merge_message_group`, `_merge_and_deduplicate_streaming`, processor.py)
-/

/-- Python `s[:n]`. -/
def strTake (s : String) (n : Nat) : String := ⟨s.data.take n⟩

/-- Python `s[-n:]` (for `0 < n ≤ len(s)`). -/
def strTakeRight (s : String) (n : Nat) : String := ⟨s.data.drop (s.data.length - n)⟩

/-- `_generate_tool_summary`, one tool: the human-readable `Used ...` line. -/
def toolSummary (t : ToolUse) : String :=
  if t.name == "MultiEdit" then
    "Used " ++ t.name ++ " to make " ++ toString t.input.edits ++ " edits"
  else if t.name == "Read" || t.name == "Write" || t.name == "Edit" then
    let fp := t.input.file_path
    let fp := if fp.length > 50 then "..." ++ strTakeRight fp 47 else fp
    "Used " ++ t.name ++ " on " ++ fp
  else if t.name == "Bash" then
    let c := strTake t.input.command 50
    let c := if t.input.command.length > 50 then c ++ "..." else c
    "Used " ++ t.name ++ ": " ++ c
  else if t.name == "Task" then
    "Used " ++ t.name ++ ": " ++ strTake t.input.description 30
  else
    "Used " ++ t.name

/-- `_generate_tool_summary`: `" | ".join(summaries)`. -/
def generateToolSummary (tools : List ToolUse) : String :=
  pyJoin " | " (tools.map toolSummary)

/-- One step of the tool-collection loop of `_merge_message_group`:
deduplicate by tool id when present, by whole-dict equality otherwise. -/
def mergedToolsStep (acc : List ToolUse) (t : ToolUse) : List ToolUse :=
  if t.id != "" then
    if acc.any (fun u => u.id == t.id) then acc else acc ++ [t]
  else
    if acc.contains t then acc else acc ++ [t]

/-- All tools of a streaming group, deduplicated (`all_tools`). -/
def collectMergedTools (group : List Message) : List ToolUse :=
  group.foldl (fun acc m => m.tools.foldl mergedToolsStep acc) []

/-- One step of the text-collection loop of `_merge_message_group`: keep
non-empty contents that are not synthesized `Used ...` tool summaries,
without duplicates. -/
def textPartsStep (parts : List String) (m : Message) : List String :=
  if (m.content != "") && !(strBegins m.content "Used ") then
    if parts.contains m.content then parts else parts ++ [m.content]
  else parts

/-- The distinct text fragments of a streaming group (`text_parts`). -/
def collectMergedTextParts (group : List Message) : List String :=
  group.foldl textPartsStep []

/-- The merged `_raw_data["message"]["content"]` array: tool-use blocks
deduplicated by id plus non-duplicate text blocks, in group order. -/
def collectMergedRawContent (group : List Message) : List RawBlock :=
  (group.foldl (fun (acc : List RawBlock × List String) m =>
    match m.raw with
    | some r =>
      if r.content ≠ [] then
        r.content.foldl (fun (acc : List RawBlock × List String) b =>
          if b.btype == "tool_use" then
            if b.id != "" && !(acc.2.contains b.id) then (acc.1 ++ [b], acc.2 ++ [b.id])
            else acc
          else if b.btype == "text" then
            if acc.1.contains b then acc else (acc.1 ++ [b], acc.2)
          else acc) acc
      else acc
    | none => acc) ([], [])).1

/-- The token-summation loop of `_merge_message_group`: tokens are reset and
then summed across the entire group. -/
def tokensStep (acc : TokenUsage) (m : Message) : TokenUsage :=
  { input := acc.input + m.tokens.input,
    output := acc.output + m.tokens.output,
    cache_creation := acc.cache_creation + m.tokens.cache_creation,
    cache_read := acc.cache_read + m.tokens.cache_read }

/-- `_merge_message_group`: merge a group of streaming entries that share one
logical message id into a single message.  (`duration_ms`, a display-only
field computed by parsing the two ISO timestamps, is not modelled; no later
phase reads it.)  The group is always non-empty at the call sites. -/
def mergeMessageGroup (group : List Message) : Message :=
  let first := group.headD {}
  let all_tools := collectMergedTools group
  let text_parts := collectMergedTextParts group
  let content :=
    if text_parts ≠ [] then pyJoin "\n" text_parts
    else if all_tools ≠ [] then generateToolSummary all_tools
    else ""
  let timestamps := (group.map (fun m => m.timestamp)).filter (fun t => t != "")
  let startTs :=
    if timestamps ≠ [] then strListMin timestamps
    else strListMax (group.map (fun m => m.timestamp))
  let endTs :=
    if timestamps ≠ [] then strListMax timestamps
    else strListMax (group.map (fun m => m.timestamp))
  let raw :=
    if all_tools ≠ [] ∧ first.raw.isSome then
      some { first.raw.getD {} with content := collectMergedRawContent group }
    else first.raw
  let tok := group.foldl tokensStep {}
  { first with
    tools := all_tools, content := content, start_timestamp := startTs,
    timestamp := endTs, raw := raw, tokens := tok }

/-- The logical message id used for streaming grouping:
`_raw_data["message"]["id"]` when truthy, else the processed `message_id`
(`""` = no id, Python `None`). -/
def getStreamId (m : Message) : String :=
  match m.raw with
  | some r => if r.id != "" then r.id else m.message_id
  | none => m.message_id

/-- Membership in the streaming group of message id `mid`: an assistant
message carrying that id. -/
def streamPred (mid : String) (m : Message) : Bool :=
  m.type == "assistant" && getStreamId m == mid

/-- The streaming group of a message id: the assistant messages carrying
that id, in input order, each with `message_id` set to it (the source
assigns `msg["message_id"] = msg_id` while building the groups). -/
def streamGroup (msgs : List Message) (mid : String) : List Message :=
  (msgs.filter (streamPred mid)).map (fun m => { m with message_id := mid })

/-- The output loop of `_merge_and_deduplicate_streaming`: each group of
size `> 1` is replaced, at the position of its first member, by the merged
message; later members are dropped; everything else is kept.  (The source's
`elif not (msg_id and assistant and msg_id in processed_ids)` skip can only
fire for messages of an already-processed group, which necessarily has size
`> 1` and is therefore caught by the first branch.) -/
def streamingGo (all : List Message) : List Message → List String → List Message
  | [], _ => []
  | m :: rest, processed =>
    if m.type == "assistant" && getStreamId m != "" &&
        (streamGroup all (getStreamId m)).length > 1 then
      if processed.contains (getStreamId m) then
        streamingGo all rest processed
      else
        mergeMessageGroup (streamGroup all (getStreamId m)) ::
          streamingGo all rest (processed ++ [getStreamId m])
    else if m.type == "assistant" && getStreamId m != "" then
      { m with message_id := getStreamId m } :: streamingGo all rest processed
    else
      m :: streamingGo all rest processed

/-- `_merge_and_deduplicate_streaming` (phase 3 of `process_logs`). -/
def mergeAndDeduplicateStreaming (msgs : List Message) : List Message :=
  streamingGo msgs msgs []

/-! ### Lemmas about the streaming merge -/

theorem mergeMessageGroup_type (g : List Message) :
    (mergeMessageGroup g).type = (g.headD {}).type := rfl

theorem mergeMessageGroup_message_id (g : List Message) :
    (mergeMessageGroup g).message_id = (g.headD {}).message_id := rfl

theorem mergeMessageGroup_tokens (g : List Message) :
    (mergeMessageGroup g).tokens = g.foldl tokensStep {} := rfl

theorem mergeMessageGroup_raw (g : List Message) :
    (mergeMessageGroup g).raw =
      if collectMergedTools g ≠ [] ∧ (g.headD {}).raw.isSome then
        some { (g.headD {}).raw.getD {} with content := collectMergedRawContent g }
      else (g.headD {}).raw := rfl

theorem mergeMessageGroup_timestamp (g : List Message) :
    (mergeMessageGroup g).timestamp =
      if ((g.map (fun m => m.timestamp)).filter (fun t => t != "")) ≠ [] then
        strListMax ((g.map (fun m => m.timestamp)).filter (fun t => t != ""))
      else strListMax (g.map (fun m => m.timestamp)) := rfl

theorem mergeMessageGroup_start_timestamp (g : List Message) :
    (mergeMessageGroup g).start_timestamp =
      if ((g.map (fun m => m.timestamp)).filter (fun t => t != "")) ≠ [] then
        strListMin ((g.map (fun m => m.timestamp)).filter (fun t => t != ""))
      else strListMax (g.map (fun m => m.timestamp)) := rfl

theorem mergeMessageGroup_content (g : List Message) :
    (mergeMessageGroup g).content =
      if collectMergedTextParts g ≠ [] then pyJoin "\n" (collectMergedTextParts g)
      else if collectMergedTools g ≠ [] then generateToolSummary (collectMergedTools g)
      else "" := rfl

theorem getStreamId_mergeMessageGroup (g : List Message) :
    getStreamId (mergeMessageGroup g) = getStreamId (g.headD {}) := by
  unfold getStreamId
  rw [show (mergeMessageGroup g).raw =
      if collectMergedTools g ≠ [] ∧ (g.headD {}).raw.isSome then
        some { (g.headD {}).raw.getD {} with content := collectMergedRawContent g }
      else (g.headD {}).raw from rfl]
  rw [mergeMessageGroup_message_id]
  by_cases hc : collectMergedTools g ≠ [] ∧ (g.headD {}).raw.isSome
  · rw [if_pos hc]
    cases hr : (g.headD {}).raw with
    | none => rw [hr] at hc; simp at hc
    | some r => rfl
  · rw [if_neg hc]

theorem getStreamId_set_message_id (m : Message) :
    getStreamId { m with message_id := getStreamId m } = getStreamId m := by
  unfold getStreamId
  cases m.raw with
  | none => rfl
  | some r =>
    dsimp only
    by_cases hid : r.id != ""
    · rw [if_pos hid, if_pos hid]
    · rw [if_neg hid, if_neg hid]

theorem tokensFold_sum : ∀ (g : List Message) (acc : TokenUsage),
    (g.foldl tokensStep acc).input = acc.input + (g.map (fun m => m.tokens.input)).sum ∧
    (g.foldl tokensStep acc).output = acc.output + (g.map (fun m => m.tokens.output)).sum ∧
    (g.foldl tokensStep acc).cache_creation
      = acc.cache_creation + (g.map (fun m => m.tokens.cache_creation)).sum ∧
    (g.foldl tokensStep acc).cache_read
      = acc.cache_read + (g.map (fun m => m.tokens.cache_read)).sum := by
  intro g
  induction g with
  | nil => intro acc; simp
  | cons m g ih =>
    intro acc
    simp only [List.foldl_cons, List.map_cons, List.sum_cons]
    have h := ih (tokensStep acc m)
    refine ⟨?_, ?_, ?_, ?_⟩
    · rw [h.1]; unfold tokensStep; dsimp only; omega
    · rw [h.2.1]; unfold tokensStep; dsimp only; omega
    · rw [h.2.2.1]; unfold tokensStep; dsimp only; omega
    · rw [h.2.2.2]; unfold tokensStep; dsimp only; omega

theorem textPartsFold_superset : ∀ (g : List Message) (acc : List String) (s : String),
    s ∈ acc → s ∈ g.foldl textPartsStep acc := by
  intro g
  induction g with
  | nil => intro acc s hs; simpa using hs
  | cons m g ih =>
    intro acc s hs
    simp only [List.foldl_cons]
    apply ih
    unfold textPartsStep
    by_cases h1 : (m.content != "") && !(strBegins m.content "Used ")
    · rw [if_pos h1]
      by_cases h2 : acc.contains m.content
      · rw [if_pos h2]; exact hs
      · rw [if_neg h2]; exact List.mem_append_left _ hs
    · rw [if_neg h1]; exact hs

theorem collectMergedTextParts_mem (g : List Message) (m : Message) (hm : m ∈ g)
    (hc : m.content ≠ "") (hu : strBegins m.content "Used " = false) :
    m.content ∈ collectMergedTextParts g := by
  unfold collectMergedTextParts
  have aux : ∀ (g : List Message) (acc : List String), m ∈ g →
      m.content ∈ g.foldl textPartsStep acc := by
    intro g
    induction g with
    | nil => intro acc h; simp at h
    | cons x g ih =>
      intro acc h
      simp only [List.foldl_cons]
      rcases List.mem_cons.mp h with h1 | h1
      · subst h1
        apply textPartsFold_superset
        unfold textPartsStep
        rw [if_pos (by simp [hc, hu])]
        by_cases h2 : acc.contains m.content
        · rw [if_pos h2]
          exact List.elem_iff.mp h2
        · rw [if_neg h2]
          exact List.mem_append_right _ (List.mem_singleton.mpr rfl)
      · exact ih _ h1
  exact aux g [] hm

theorem streamGroup_mem {msgs : List Message} {mid : String} :
    ∀ x ∈ streamGroup msgs mid, x.type = "assistant" ∧ getStreamId x = mid := by
  intro x hx
  unfold streamGroup at hx
  rcases List.mem_map.mp hx with ⟨m, hm, hmap⟩
  have hp : streamPred mid m = true := List.of_mem_filter hm
  unfold streamPred at hp
  rw [Bool.and_eq_true] at hp
  have htype : m.type = "assistant" := by simpa using hp.1
  have hid : getStreamId m = mid := by simpa using hp.2
  subst hmap
  refine ⟨htype, ?_⟩
  unfold getStreamId at hid ⊢
  cases hr : m.raw with
  | none => dsimp only
  | some r =>
    rw [hr] at hid
    dsimp only at hid ⊢
    by_cases h : r.id != ""
    · rw [if_pos h] at hid ⊢
      exact hid
    · rw [if_neg h]

theorem streamGroup_pred {msgs : List Message} {mid : String}
    (hne : streamGroup msgs mid ≠ []) :
    streamPred mid (mergeMessageGroup (streamGroup msgs mid)) = true := by
  have hhead : (streamGroup msgs mid).headD {} ∈ streamGroup msgs mid := by
    cases hg : streamGroup msgs mid with
    | nil => exact absurd hg hne
    | cons a l => simp
  have h := streamGroup_mem _ hhead
  unfold streamPred
  rw [Bool.and_eq_true]
  constructor
  · rw [mergeMessageGroup_type, h.1]
    exact beq_self_eq_true "assistant"
  · rw [getStreamId_mergeMessageGroup, h.2]
    exact beq_self_eq_true mid

theorem contains_false_of_not_mem {l : List String} {a : String} (h : a ∉ l) :
    l.contains a = false := by
  cases hc : l.contains a
  · rfl
  · exact absurd (List.elem_iff.mp hc) h

/-- The single-group characterization of the streaming output: the merged
message of a group of size `> 1` appears exactly once, at the position of
the group's first member, and no other output message carries that id. -/
theorem streamingGo_filter (all : List Message) (mid : String) (hmid : mid ≠ "")
    (hlen : 1 < (streamGroup all mid).length) :
    ∀ (rest : List Message) (processed : List String),
      (streamingGo all rest processed).filter (streamPred mid) =
        if mid ∈ processed then []
        else if rest.any (streamPred mid) then [mergeMessageGroup (streamGroup all mid)]
        else [] := by
  intro rest
  induction rest with
  | nil =>
    intro processed
    simp [streamingGo]
  | cons m rest ih =>
    intro processed
    have hPm : streamPred mid m = true ↔
        (m.type = "assistant" ∧ getStreamId m = mid) := by
      unfold streamPred
      rw [Bool.and_eq_true, beq_iff_eq, beq_iff_eq]
    simp only [streamingGo]
    split
    case isTrue hguard =>
      rw [Bool.and_eq_true, Bool.and_eq_true] at hguard
      have htype : m.type = "assistant" := by simpa using hguard.1.1
      have hlen2 : 1 < (streamGroup all (getStreamId m)).length := by
        simpa using hguard.2
      split
      case isTrue hcont =>
        have hmem2 : getStreamId m ∈ processed := List.elem_iff.mp hcont
        rw [ih processed]
        by_cases hm : getStreamId m = mid
        · rw [if_pos (hm ▸ hmem2), if_pos (hm ▸ hmem2)]
        · have hPmf : streamPred mid m = false := by
            cases hp : streamPred mid m
            · rfl
            · exact absurd (hPm.mp hp).2 hm
          rw [List.any_cons, hPmf, Bool.false_or]
      case isFalse hcont =>
        have hmem2 : getStreamId m ∉ processed := fun h =>
          hcont (List.elem_iff.mpr h)
        rw [List.filter_cons]
        by_cases hm : getStreamId m = mid
        · rw [hm] at hmem2
          rw [hm]
          have hne : streamGroup all mid ≠ [] := by
            intro hnil
            rw [hnil] at hlen
            simp at hlen
          rw [if_pos (streamGroup_pred hne)]
          rw [ih (processed ++ [mid])]
          rw [if_pos (List.mem_append_right _ (List.mem_singleton.mpr rfl))]
          rw [if_neg hmem2, List.any_cons]
          have hPmt : streamPred mid m = true := hPm.mpr ⟨htype, hm⟩
          rw [hPmt, Bool.true_or, if_pos rfl]
        · have hne2 : streamGroup all (getStreamId m) ≠ [] := by
            intro hnil
            rw [hnil] at hlen2
            simp at hlen2
          have hp2 := streamGroup_pred hne2
          have hPmergedf :
              streamPred mid (mergeMessageGroup (streamGroup all (getStreamId m))) = false := by
            cases hp : streamPred mid (mergeMessageGroup (streamGroup all (getStreamId m)))
            · rfl
            · unfold streamPred at hp hp2
              rw [Bool.and_eq_true, beq_iff_eq, beq_iff_eq] at hp hp2
              rw [hp2.2] at hp
              exact absurd hp.2 hm
          rw [if_neg (by rw [hPmergedf]; exact Bool.noConfusion)]
          rw [ih (processed ++ [getStreamId m])]
          have hmemiff : (mid ∈ processed ++ [getStreamId m]) ↔ mid ∈ processed := by
            rw [List.mem_append, List.mem_singleton]
            constructor
            · rintro (h | h)
              · exact h
              · exact absurd h.symm hm
            · exact fun h => Or.inl h
          have hPmf : streamPred mid m = false := by
            cases hp : streamPred mid m
            · rfl
            · exact absurd (hPm.mp hp).2 hm
          rw [List.any_cons, hPmf, Bool.false_or]
          by_cases hmp : mid ∈ processed
          · rw [if_pos (hmemiff.mpr hmp), if_pos hmp]
          · rw [if_neg (fun h => hmp (hmemiff.mp h)), if_neg hmp]
    case isFalse hguard =>
      have hPmf : streamPred mid m = false := by
        cases hp : streamPred mid m
        · rfl
        · exfalso
          rcases hPm.mp hp with ⟨htype, hgid⟩
          apply hguard
          rw [Bool.and_eq_true, Bool.and_eq_true]
          refine ⟨⟨?_, ?_⟩, ?_⟩
          · rw [htype]
            exact beq_self_eq_true "assistant"
          · rw [hgid]
            exact bne_iff_ne.mpr hmid
          · rw [hgid]
            exact decide_eq_true hlen
      split
      case isTrue hguard2 =>
        rw [List.filter_cons]
        have hPkeptf : streamPred mid { m with message_id := getStreamId m } = false := by
          cases hp : streamPred mid { m with message_id := getStreamId m }
          · rfl
          · exfalso
            unfold streamPred at hp
            rw [Bool.and_eq_true, beq_iff_eq, beq_iff_eq] at hp
            rw [getStreamId_set_message_id] at hp
            have hPmt : streamPred mid m = true := by
              unfold streamPred
              rw [Bool.and_eq_true, beq_iff_eq, beq_iff_eq]
              exact ⟨hp.1, hp.2⟩
            rw [hPmt] at hPmf
            exact Bool.noConfusion hPmf
        rw [if_neg (by rw [hPkeptf]; exact Bool.noConfusion)]
        rw [ih processed, List.any_cons, hPmf, Bool.false_or]
      case isFalse hguard2 =>
        rw [List.filter_cons]
        rw [if_neg (by rw [hPmf]; exact Bool.noConfusion)]
        rw [ih processed, List.any_cons, hPmf, Bool.false_or]

/-- C1: for every group of `N >= 2` assistant messages sharing one logical
message id, the streaming merge outputs exactly one message for that id —
the merged message — whose four token fields are the sums over the whole
group, whose timestamp is the maximum timestamp of the group, whose
`start_timestamp` is the minimum, and whose content contains every distinct
text fragment of the group (a text fragment being a non-empty content that
is not a synthesized `Used ...` tool summary). -/
theorem c1_streaming_merge (msgs : List Message) (mid : String) (hmid : mid ≠ "")
    (hN : 2 ≤ (streamGroup msgs mid).length)
    (hts : ∀ m ∈ streamGroup msgs mid, m.timestamp ≠ "") :
    ((mergeAndDeduplicateStreaming msgs).filter (streamPred mid)
        = [mergeMessageGroup (streamGroup msgs mid)]) ∧
    (mergeMessageGroup (streamGroup msgs mid)).tokens.input
        = ((streamGroup msgs mid).map (fun m => m.tokens.input)).sum ∧
    (mergeMessageGroup (streamGroup msgs mid)).tokens.output
        = ((streamGroup msgs mid).map (fun m => m.tokens.output)).sum ∧
    (mergeMessageGroup (streamGroup msgs mid)).tokens.cache_creation
        = ((streamGroup msgs mid).map (fun m => m.tokens.cache_creation)).sum ∧
    (mergeMessageGroup (streamGroup msgs mid)).tokens.cache_read
        = ((streamGroup msgs mid).map (fun m => m.tokens.cache_read)).sum ∧
    ((mergeMessageGroup (streamGroup msgs mid)).timestamp
        ∈ (streamGroup msgs mid).map (fun m => m.timestamp) ∧
      ∀ m ∈ streamGroup msgs mid,
        strLe m.timestamp (mergeMessageGroup (streamGroup msgs mid)).timestamp = true) ∧
    ((mergeMessageGroup (streamGroup msgs mid)).start_timestamp
        ∈ (streamGroup msgs mid).map (fun m => m.timestamp) ∧
      ∀ m ∈ streamGroup msgs mid,
        strLe (mergeMessageGroup (streamGroup msgs mid)).start_timestamp m.timestamp = true) ∧
    (∀ m ∈ streamGroup msgs mid, m.content ≠ "" → strBegins m.content "Used " = false →
      strContains (mergeMessageGroup (streamGroup msgs mid)).content m.content = true) := by
  have hlen : 1 < (streamGroup msgs mid).length := by omega
  have hmapne : (streamGroup msgs mid).map (fun m => m.timestamp) ≠ [] := by
    intro h
    have := congrArg List.length h
    rw [List.length_map] at this
    simp only [List.length_nil] at this
    omega
  have hfil : ((streamGroup msgs mid).map (fun m => m.timestamp)).filter (fun t => t != "")
      = (streamGroup msgs mid).map (fun m => m.timestamp) := by
    apply List.filter_eq_self.mpr
    intro t ht
    rcases List.mem_map.mp ht with ⟨m, hm, hmt⟩
    subst hmt
    exact bne_iff_ne.mpr (hts m hm)
  refine ⟨?_, ?_, ?_, ?_, ?_, ⟨?_, ?_⟩, ⟨?_, ?_⟩, ?_⟩
  · unfold mergeAndDeduplicateStreaming
    rw [streamingGo_filter msgs mid hmid hlen msgs []]
    rw [if_neg (List.not_mem_nil mid)]
    have hany : msgs.any (streamPred mid) = true := by
      have hpos : 0 < (msgs.filter (streamPred mid)).length := by
        have : (streamGroup msgs mid).length = (msgs.filter (streamPred mid)).length := by
          unfold streamGroup
          rw [List.length_map]
        omega
      rcases List.exists_mem_of_length_pos hpos with ⟨x, hx⟩
      exact List.any_eq_true.mpr ⟨x, List.mem_of_mem_filter hx, List.of_mem_filter hx⟩
    rw [if_pos hany]
  · rw [mergeMessageGroup_tokens, (tokensFold_sum (streamGroup msgs mid) {}).1]
    simp
  · rw [mergeMessageGroup_tokens, (tokensFold_sum (streamGroup msgs mid) {}).2.1]
    simp
  · rw [mergeMessageGroup_tokens, (tokensFold_sum (streamGroup msgs mid) {}).2.2.1]
    simp
  · rw [mergeMessageGroup_tokens, (tokensFold_sum (streamGroup msgs mid) {}).2.2.2]
    simp
  · rw [mergeMessageGroup_timestamp, hfil, if_pos hmapne]
    exact strListMax_mem _ hmapne
  · intro m hm
    rw [mergeMessageGroup_timestamp, hfil, if_pos hmapne]
    exact strListMax_le _ _ (List.mem_map_of_mem _ hm)
  · rw [mergeMessageGroup_start_timestamp, hfil, if_pos hmapne]
    exact strListMin_mem _ hmapne
  · intro m hm
    rw [mergeMessageGroup_start_timestamp, hfil, if_pos hmapne]
    exact strListMin_le _ _ (List.mem_map_of_mem _ hm)
  · intro m hm hc hu
    have hmem := collectMergedTextParts_mem _ m hm hc hu
    rw [mergeMessageGroup_content, if_pos (List.ne_nil_of_mem hmem)]
    exact strContains_of_mem_join "\n" hmem

/-- A user message preceding a streamed response (witness input). -/
def c1msgU : Message := { type := "user", timestamp := "2024-01-01T00:00:00Z", content := "hi" }

/-- First streamed fragment of an assistant response (witness input). -/
def c1msgA : Message :=
  { type := "assistant", timestamp := "2024-01-01T00:00:01Z", content := "hello",
    tokens := { input := 3, output := 5 }, message_id := "m1" }

/-- Second streamed fragment of the same response (witness input). -/
def c1msgB : Message :=
  { type := "assistant", timestamp := "2024-01-01T00:00:03Z", content := "world",
    tokens := { input := 2, output := 7, cache_read := 4 }, message_id := "m1" }

/-- Witness for C1 at a concrete two-fragment streamed response. -/
theorem c1_streaming_merge_witness :
    ((mergeAndDeduplicateStreaming [c1msgU, c1msgA, c1msgB]).filter (streamPred "m1")).length = 1 ∧
    (mergeMessageGroup (streamGroup [c1msgU, c1msgA, c1msgB] "m1")).tokens.input = 5 := by
  have h := c1_streaming_merge [c1msgU, c1msgA, c1msgB] "m1"
    (by decide) (by decide) (by decide)
  refine ⟨?_, ?_⟩
  · rw [h.1]
    rfl
  · rw [h.2.1]
    decide

/-- An undated message (empty timestamp). -/
def c2Undated : Message := { type := "assistant", timestamp := "" }

/-- A dated message. -/
def c2Dated : Message := { type := "user", timestamp := "2024-01-01T00:00:00Z" }

theorem sortTimestampKey_empty {b : Message} (h : sortTimestampKey b = "") :
    b.timestamp = "" := by
  unfold sortTimestampKey at h
  by_cases hb : b.timestamp = ""
  · exact hb
  · rw [if_neg hb] at h
    exact absurd h hb

/-- C2, counterexample: on an input consisting of one undated and one dated
message, phase 12 places the dated message first and the undated message
last — the opposite of the claimed "undated messages sort first, before all
dated messages" (Python `reverse=True` sorts the empty-string key to the
end, not the beginning). -/
theorem c2_undated_first_counterexample :
    phase12SortAndLimit [c2Undated, c2Dated] 0 = [c2Dated, c2Undated] ∧
    c2Undated.timestamp = "" ∧ c2Dated.timestamp ≠ "" := by
  refine ⟨?_, by decide, by decide⟩
  decide

/-- C2, amended: the final message list is sorted by timestamp descending
(every earlier message's sort key is `>=` every later one's), undated
messages (empty timestamp, the sort key for an absent timestamp) sort
*last*, after all dated messages, and without a limit the output is a
permutation of the input. -/
theorem c2_sorted_descending_undated_last (msgs : List Message) (limit : Nat) :
    List.Pairwise phase12Rel (phase12SortAndLimit msgs limit) ∧
    List.Pairwise (fun a b => a.timestamp = "" → b.timestamp = "")
      (phase12SortAndLimit msgs limit) ∧
    (phase12SortAndLimit msgs 0).Perm msgs := by
  haveI : IsTotal Message phase12Rel :=
    ⟨fun a b => strLe_total (sortTimestampKey b) (sortTimestampKey a)⟩
  haveI : IsTrans Message phase12Rel :=
    ⟨fun _ _ _ hab hbc => strLe_trans hbc hab⟩
  have hsorted : List.Pairwise phase12Rel (List.insertionSort phase12Rel msgs) :=
    List.sorted_insertionSort phase12Rel msgs
  have hsub : ∀ limit : Nat,
      List.Pairwise phase12Rel (phase12SortAndLimit msgs limit) := by
    intro lim
    unfold phase12SortAndLimit
    by_cases h : lim ≠ 0
    · rw [if_pos h]
      exact List.Pairwise.sublist (List.take_sublist lim _) hsorted
    · rw [if_neg h]
      exact hsorted
  refine ⟨hsub limit, ?_, ?_⟩
  · refine (hsub limit).imp ?_
    intro a b hr ha
    unfold phase12Rel at hr
    have hka : sortTimestampKey a = "" := by
      unfold sortTimestampKey
      rw [if_pos ha]
    rw [hka] at hr
    exact sortTimestampKey_empty (strLe_of_empty_right hr)
  · unfold phase12SortAndLimit
    rw [if_neg (by simp)]
    exact List.perm_insertionSort phase12Rel msgs

/-! ## Memory cache (`sniffly/utils/memory_cache.py`)

The `OrderedDict` is modelled by an association list whose head is the
least-recently inserted/used end (`popitem(last=False)` pops the head); the
separate `last_access` dict by a second association list.  Wall-clock
`time.time()` values are naturals passed in explicitly.  The payload
`(messages, stats)` is an abstract type `α`: `put` inspects it only through
`_estimate_size(messages, stats)`, whose result is passed in as
`sizeEstimate`. -/

/-- One cached tuple `(value, cached_at, last_accessed)`. -/
structure CacheEntry (α : Type) where
  value : α
  cached_at : Nat
  last_accessed : Nat
deriving DecidableEq, Repr

/-- `MemoryCache` state. -/
structure MemoryCache (α : Type) where
  cache : List (String × CacheEntry α) := []
  maxProjects : Nat
  maxBytesPerProject : Nat
  lastAccess : List (String × Nat) := []
  hits : Nat := 0
  misses : Nat := 0
  evictions : Nat := 0
  sizeRejections : Nat := 0
deriving DecidableEq, Repr

/-- Dict `pop(k)`: remove the (first) binding of `k`. -/
def removeKey {β : Type} (l : List (String × β)) (k : String) : List (String × β) :=
  l.eraseP (fun p => p.1 == k)

/-- Python dict assignment `d[k] = v`: update in place when the key exists
(keeping its position), append at the end otherwise. -/
def setKey {β : Type} (l : List (String × β)) (k : String) (v : β) : List (String × β) :=
  if l.any (fun p => p.1 == k) then
    l.map (fun p => if p.1 == k then (k, v) else p)
  else l ++ [(k, v)]

/-- Python `d.get(k, default)`. -/
def getKeyD {β : Type} (l : List (String × β)) (k : String) (d : β) : β :=
  match l.find? (fun p => p.1 == k) with
  | some p => p.2
  | none => d

/-- `MemoryCache.get`: on a hit, pop and re-append the entry (LRU touch),
refresh its `last_accessed` and the protection clock, bump `hits`. -/
def MemoryCache.get {α : Type} (c : MemoryCache α) (path : String) (now : Nat) :
    Option α × MemoryCache α :=
  match c.cache.find? (fun p => p.1 == path) with
  | some p =>
    (some p.2.value,
      { c with
        cache := removeKey c.cache path ++ [(path, { p.2 with last_accessed := now })],
        lastAccess := setKey c.lastAccess path now,
        hits := c.hits + 1 })
  | none => (none, { c with misses := c.misses + 1 })

/-- The candidate-selection loop of `MemoryCache.put`: scan the dict in
order, skip entries accessed within the 5-minute protection window unless
`force`, and keep the entry with the strictly smallest access time. -/
def evictionStep (lastAccess : List (String × Nat)) (force : Bool) (now : Nat)
    {α : Type} (best : Option (String × Nat)) (p : String × CacheEntry α) :
    Option (String × Nat) :=
  if !force && now - getKeyD lastAccess p.1 0 < 300 then best
  else
    match best with
    | none => some (p.1, getKeyD lastAccess p.1 0)
    | some q =>
      if getKeyD lastAccess p.1 0 < q.2 then some (p.1, getKeyD lastAccess p.1 0)
      else best

/-- The selected eviction candidate, if any. -/
def findEvictionCandidate {α : Type} (cache : List (String × CacheEntry α))
    (lastAccess : List (String × Nat)) (force : Bool) (now : Nat) : Option String :=
  (cache.foldl (evictionStep lastAccess force now) none).map (fun q => q.1)

/-- Evict one key: drop it from the dict and from `last_access`, bump the
eviction counter. -/
def MemoryCache.evictKey {α : Type} (c : MemoryCache α) (k : String) : MemoryCache α :=
  { c with cache := removeKey c.cache k, lastAccess := removeKey c.lastAccess k,
           evictions := c.evictions + 1 }

/-- The capacity-handling phase of `MemoryCache.put`: at capacity, evict the
candidate if one exists; otherwise reject (`none`) unless `force`, in which
case `popitem(last=False)` evicts the head.  (On an empty dict that
`popitem` would raise `KeyError`; the branch is unreachable whenever
`max_projects > 0`.) -/
def MemoryCache.putEvict {α : Type} (c : MemoryCache α) (force : Bool) (now : Nat) :
    Option (MemoryCache α) :=
  if c.cache.length ≥ c.maxProjects then
    match findEvictionCandidate c.cache c.lastAccess force now with
    | some victim => some (c.evictKey victim)
    | none =>
      if force then
        match c.cache with
        | (k, _) :: _ => some (c.evictKey k)
        | [] => some c
      else none
  else some c

/-- `MemoryCache.put`.  Oversized entries are rejected up front; then the
capacity phase runs; on success the new entry is stored and both clocks are
set to `now`. -/
def MemoryCache.put {α : Type} (c : MemoryCache α) (path : String) (value : α)
    (sizeEstimate : Nat) (force : Bool) (now : Nat) : Bool × MemoryCache α :=
  if sizeEstimate > c.maxBytesPerProject then
    (false, { c with sizeRejections := c.sizeRejections + 1 })
  else
    match c.putEvict force now with
    | none => (false, c)
    | some c2 =>
      (true,
        { c2 with
          cache := setKey c2.cache path
            { value := value, cached_at := now, last_accessed := now },
          lastAccess := setKey c2.lastAccess path now })

/-- `MemoryCache.invalidate`. -/
def MemoryCache.invalidate {α : Type} (c : MemoryCache α) (path : String) :
    Bool × MemoryCache α :=
  if c.cache.any (fun p => p.1 == path) then
    (true, { c with cache := removeKey c.cache path,
                    lastAccess := removeKey c.lastAccess path })
  else (false, c)

/-- `MemoryCache.clear` (counters are kept, as in the source). -/
def MemoryCache.clear {α : Type} (c : MemoryCache α) : MemoryCache α :=
  { c with cache := [], lastAccess := [] }

/-- A fresh cache (`MemoryCache.__init__`). -/
def emptyMemoryCache (α : Type) (maxProjects maxBytes : Nat) : MemoryCache α :=
  { maxProjects := maxProjects, maxBytesPerProject := maxBytes }

/-- One public cache operation with its wall-clock instant. -/
inductive CacheOp (α : Type) where
  | get (path : String) (now : Nat)
  | put (path : String) (value : α) (sizeEstimate : Nat) (force : Bool) (now : Nat)
  | invalidate (path : String)
  | clear
deriving DecidableEq

/-- Run one operation, keeping the resulting state. -/
def runOp {α : Type} (c : MemoryCache α) : CacheOp α → MemoryCache α
  | .get p now => (c.get p now).2
  | .put p v e f now => (c.put p v e f now).2
  | .invalidate p => (c.invalidate p).2
  | .clear => c.clear

/-- Run a sequence of operations from a state. -/
def runOps {α : Type} (c : MemoryCache α) (ops : List (CacheOp α)) : MemoryCache α :=
  ops.foldl runOp c

/-! ### Lemmas about the memory cache -/

theorem removeKey_length_le {β : Type} (l : List (String × β)) (k : String) :
    (removeKey l k).length ≤ l.length :=
  (List.eraseP_sublist l).length_le

theorem removeKey_length_of_mem {β : Type} :
    ∀ {l : List (String × β)} {k : String}, (∃ p ∈ l, p.1 = k) →
      (removeKey l k).length + 1 = l.length := by
  intro l
  induction l with
  | nil => intro k h; simp at h
  | cons p l ih =>
    intro k h
    unfold removeKey
    rw [List.eraseP_cons]
    by_cases hp : p.1 == k
    · rw [hp]
      simp
    · have hp2 : (p.1 == k) = false := by
        cases hpc : p.1 == k
        · rfl
        · exact absurd hpc (by simpa using hp)
      rw [hp2]
      simp only [cond_false, List.length_cons]
      rcases h with ⟨q, hq, hqk⟩
      rcases List.mem_cons.mp hq with h1 | h1
      · exfalso
        apply hp
        rw [h1] at hqk
        exact beq_iff_eq.mpr hqk
      · have := ih ⟨q, h1, hqk⟩
        unfold removeKey at this
        omega

theorem setKey_length_le {β : Type} (l : List (String × β)) (k : String) (v : β) :
    (setKey l k v).length ≤ l.length + 1 := by
  unfold setKey
  by_cases h : l.any (fun p => p.1 == k)
  · rw [if_pos h, List.length_map]
    omega
  · rw [if_neg h, List.length_append]
    simp

theorem setKey_map_fst_of_not_mem {β : Type} {l : List (String × β)} {k : String}
    (h : ∀ p ∈ l, p.1 ≠ k) (v : β) :
    (setKey l k v).map (fun p => p.1) = l.map (fun p => p.1) ++ [k] := by
  unfold setKey
  rw [if_neg (by
    intro hany
    rcases List.any_eq_true.mp hany with ⟨p, hp, hpk⟩
    exact h p hp (by simpa using hpk))]
  simp

theorem removeKey_map_fst {β : Type} :
    ∀ (l : List (String × β)) (k : String),
      (removeKey l k).map (fun p => p.1) = (l.map (fun p => p.1)).erase k := by
  intro l
  induction l with
  | nil => intro k; rfl
  | cons p l ih =>
    intro k
    unfold removeKey
    rw [List.eraseP_cons, List.map_cons, List.erase_cons]
    by_cases hp : p.1 == k
    · rw [hp]
      simp
    · have hp2 : (p.1 == k) = false := by
        cases hpc : p.1 == k
        · rfl
        · exact absurd hpc hp
      rw [hp2, if_neg (by simp)]
      simp only [cond_false, List.map_cons]
      have ih2 := ih k
      unfold removeKey at ih2
      rw [ih2]

theorem removeKey_mem_fst {β : Type} {l : List (String × β)} {k : String} {p : String × β}
    (h : p ∈ removeKey l k) : p ∈ l :=
  (List.eraseP_sublist l).mem h

theorem findKey_append_right {β : Type} {l1 : List (String × β)} (l2 : List (String × β))
    (k : String) (h : ∀ p ∈ l1, p.1 ≠ k) :
    ((l1 ++ l2).find? (fun p => p.1 == k)) = l2.find? (fun p => p.1 == k) := by
  induction l1 with
  | nil => rfl
  | cons p l1 ih =>
    rw [List.cons_append, List.find?_cons]
    have hp : (p.1 == k) = false := by
      cases hpc : p.1 == k
      · rfl
      · exact absurd (by simpa using hpc) (h p (List.mem_cons_self _ _))
    rw [hp]
    exact ih (fun q hq => h q (List.mem_cons_of_mem _ hq))

/-- For any `force`, a selected candidate is a key of the dict. -/
theorem evictionFold_mem {α : Type} (lastAccess : List (String × Nat)) (force : Bool)
    (now : Nat) :
    ∀ (l : List (String × CacheEntry α)) (best : Option (String × Nat)) (q : String × Nat),
      l.foldl (evictionStep lastAccess force now) best = some q →
      best = some q ∨ q.1 ∈ l.map (fun p => p.1) := by
  intro l
  induction l with
  | nil => intro best q h; left; exact h
  | cons p l ih =>
    intro best q h
    rw [List.foldl_cons] at h
    rcases ih _ _ h with h2 | h2
    · unfold evictionStep at h2
      cases best with
      | none =>
        split at h2
        · exact Option.noConfusion h2
        · injection h2 with h2
          right
          rw [← h2]
          exact List.mem_cons_self _ _
      | some b =>
        split at h2
        · left; exact h2
        · dsimp only at h2
          split at h2
          · injection h2 with h2
            right
            rw [← h2]
            exact List.mem_cons_self _ _
          · left; exact h2
    · right; exact List.mem_cons_of_mem _ h2

/-- The candidate-selection loop with `force = false`: a `none` result means
every entry was within the protection window; a `some` result is an
unprotected key with minimal access time among the unprotected ones. -/
theorem evictionFold_spec {α : Type} (lastAccess : List (String × Nat)) (now : Nat) :
    ∀ (l : List (String × CacheEntry α)) (best : Option (String × Nat)),
      (∀ b, best = some b → b.2 = getKeyD lastAccess b.1 0 ∧ ¬ (now - b.2 < 300)) →
      (l.foldl (evictionStep lastAccess false now) best = none →
        best = none ∧ ∀ p ∈ l, now - getKeyD lastAccess p.1 0 < 300) ∧
      (∀ q, l.foldl (evictionStep lastAccess false now) best = some q →
        q.2 = getKeyD lastAccess q.1 0 ∧ ¬ (now - q.2 < 300) ∧
        (∀ p ∈ l, ¬ (now - getKeyD lastAccess p.1 0 < 300) →
          q.2 ≤ getKeyD lastAccess p.1 0) ∧
        (∀ b, best = some b → q.2 ≤ b.2)) := by
  intro l
  induction l with
  | nil =>
    intro best hbest
    constructor
    · intro h
      exact ⟨h, by intro p hp; simp at hp⟩
    · intro q h
      simp only [List.foldl_nil] at h
      rcases hbest q h with ⟨h1, h2⟩
      refine ⟨h1, h2, by intro p hp; simp at hp, ?_⟩
      intro b hb
      rw [hb] at h
      injection h with h
      rw [h]
  | cons p l ih =>
    intro best hbest
    rw [List.foldl_cons]
    have haccess : ∀ (b2 : Option (String × Nat)),
        evictionStep lastAccess false now best p = b2 →
        (∀ b, b2 = some b → b.2 = getKeyD lastAccess b.1 0 ∧ ¬ (now - b.2 < 300)) ∧
        (b2 = none → best = none ∧ now - getKeyD lastAccess p.1 0 < 300) ∧
        (¬ (now - getKeyD lastAccess p.1 0 < 300) →
          ∃ b, b2 = some b ∧ b.2 ≤ getKeyD lastAccess p.1 0) ∧
        (∀ b b0, b2 = some b → best = some b0 → b.2 ≤ b0.2) := by
      intro b2 hb2
      unfold evictionStep at hb2
      simp only [Bool.not_false, Bool.true_and] at hb2
      by_cases hprot : now - getKeyD lastAccess p.1 0 < 300
      · rw [if_pos (by simpa using hprot)] at hb2
        subst hb2
        refine ⟨hbest, fun h => ⟨h, hprot⟩, fun h => absurd hprot h, ?_⟩
        intro b b0 hb hb0
        rw [hb0] at hb
        injection hb with hb
        rw [hb]
      · rw [if_neg (by simpa using hprot)] at hb2
        cases best with
        | none =>
          subst hb2
          refine ⟨?_, by intro h; exact Option.noConfusion h, ?_, ?_⟩
          · intro b hb
            injection hb with hb
            rw [← hb]
            exact ⟨rfl, hprot⟩
          · intro _
            exact ⟨_, rfl, Nat.le_refl _⟩
          · intro b b0 _ hb0
            exact Option.noConfusion hb0
        | some b0 =>
          dsimp only at hb2
          by_cases hlt : getKeyD lastAccess p.1 0 < b0.2
          · rw [if_pos hlt] at hb2
            subst hb2
            refine ⟨?_, by intro h; exact Option.noConfusion h, ?_, ?_⟩
            · intro b hb
              injection hb with hb
              rw [← hb]
              exact ⟨rfl, hprot⟩
            · intro _
              exact ⟨_, rfl, Nat.le_refl _⟩
            · intro b b1 hb hb1
              injection hb with hb
              injection hb1 with hb1
              rw [← hb, ← hb1]
              exact Nat.le_of_lt hlt
          · rw [if_neg hlt] at hb2
            subst hb2
            refine ⟨hbest, by intro h; exact Option.noConfusion h, ?_, ?_⟩
            · intro _
              exact ⟨b0, rfl, by omega⟩
            · intro b b1 hb hb1
              injection hb with hb
              injection hb1 with hb1
              rw [← hb, ← hb1]
    rcases haccess _ rfl with ⟨hb2inv, hb2none, hb2some, hb2chain⟩
    rcases ih (evictionStep lastAccess false now best p) hb2inv with ⟨IH1, IH2⟩
    constructor
    · intro h
      rcases IH1 h with ⟨hb2n, hlprot⟩
      rcases hb2none hb2n with ⟨hbn, hpprot⟩
      refine ⟨hbn, ?_⟩
      intro x hx
      rcases List.mem_cons.mp hx with h1 | h1
      · rw [h1]; exact hpprot
      · exact hlprot x h1
    · intro q h
      rcases IH2 q h with ⟨hq1, hq2, hqmin, hqchain⟩
      refine ⟨hq1, hq2, ?_, ?_⟩
      · intro x hx hxunprot
        rcases List.mem_cons.mp hx with h1 | h1
        · rw [h1]
          rw [h1] at hxunprot
          rcases hb2some hxunprot with ⟨b, hb, hble⟩
          exact Nat.le_trans (hqchain b hb) hble
        · exact hqmin x h1 hxunprot
      · intro b0 hb0
        cases hb2 : evictionStep lastAccess false now best p with
        | none =>
          rcases hb2none hb2 with ⟨hbn, _⟩
          rw [hbn] at hb0
          exact Option.noConfusion hb0
        | some b =>
          exact Nat.le_trans (hqchain b hb2) (hb2chain b b0 hb2 hb0)

/-- If every entry is protected, the `force = false` scan keeps its seed. -/
theorem evictionFold_all_protected {α : Type} (lastAccess : List (String × Nat)) (now : Nat) :
    ∀ (l : List (String × CacheEntry α)) (best : Option (String × Nat)),
      (∀ p ∈ l, now - getKeyD lastAccess p.1 0 < 300) →
      l.foldl (evictionStep lastAccess false now) best = best := by
  intro l
  induction l with
  | nil => intro best _; rfl
  | cons p l ih =>
    intro best hall
    rw [List.foldl_cons]
    have hstep : evictionStep lastAccess false now best p = best := by
      unfold evictionStep
      simp only [Bool.not_false, Bool.true_and]
      rw [if_pos (by simpa using hall p (List.mem_cons_self _ _))]
    rw [hstep]
    exact ih best (fun q hq => hall q (List.mem_cons_of_mem _ hq))

theorem findEvictionCandidate_mem {α : Type} {cache : List (String × CacheEntry α)}
    {lastAccess : List (String × Nat)} {force : Bool} {now : Nat} {victim : String}
    (h : findEvictionCandidate cache lastAccess force now = some victim) :
    ∃ r ∈ cache, r.1 = victim := by
  unfold findEvictionCandidate at h
  cases hfold : cache.foldl (evictionStep lastAccess force now) none with
  | none => rw [hfold] at h; exact Option.noConfusion h
  | some q =>
    rw [hfold] at h
    injection h with h
    rcases evictionFold_mem lastAccess force now cache none q hfold with h2 | h2
    · exact Option.noConfusion h2
    · rcases List.mem_map.mp h2 with ⟨r, hr, hrq⟩
      exact ⟨r, hr, by rw [hrq]; exact h⟩

/-- The capacity phase can only shrink the dict; when it succeeds at
capacity (with `0 < max_projects`), it leaves strictly fewer than
`max_projects` entries. -/
theorem putEvict_some_length {α : Type} {c : MemoryCache α} {force : Bool} {now : Nat}
    {c2 : MemoryCache α} (hmax : 0 < c.maxProjects)
    (hlen : c.cache.length ≤ c.maxProjects)
    (h : c.putEvict force now = some c2) :
    c2.cache.length < c.maxProjects ∧ c2.maxProjects = c.maxProjects := by
  unfold MemoryCache.putEvict at h
  by_cases hge : c.cache.length ≥ c.maxProjects
  · rw [if_pos hge] at h
    cases hf : findEvictionCandidate c.cache c.lastAccess force now with
    | some victim =>
      rw [hf] at h
      injection h with h
      rw [← h]
      have hmem := findEvictionCandidate_mem hf
      have := removeKey_length_of_mem (by
        rcases hmem with ⟨r, hr, hrv⟩
        exact ⟨r, hr, hrv⟩)
      unfold MemoryCache.evictKey
      dsimp only
      constructor
      · omega
      · rfl
    | none =>
      rw [hf] at h
      by_cases hforce : force = true
      · rw [hforce] at h
        rw [if_pos rfl] at h
        cases hc : c.cache with
        | nil =>
          rw [hc] at hge
          simp at hge
          omega
        | cons p rest =>
          rw [hc] at h
          injection h with h
          rw [← h]
          unfold MemoryCache.evictKey
          dsimp only
          have : ∃ r ∈ c.cache, r.1 = p.1 := ⟨p, by rw [hc]; exact List.mem_cons_self _ _, rfl⟩
          have hrm := removeKey_length_of_mem this
          constructor
          · omega
          · rfl
      · have hforce2 : force = false := by
          cases force
          · rfl
          · exact absurd rfl hforce
        rw [hforce2] at h
        rw [if_neg (by simp)] at h
        exact Option.noConfusion h
  · rw [if_neg hge] at h
    injection h with h
    rw [← h]
    omega

/-- The capacity phase never touches `max_projects` or `max_bytes`. -/
theorem putEvict_some_maxBytes {α : Type} {c : MemoryCache α} {force : Bool} {now : Nat}
    {c2 : MemoryCache α} (h : c.putEvict force now = some c2) :
    c2.maxBytesPerProject = c.maxBytesPerProject := by
  unfold MemoryCache.putEvict at h
  by_cases hge : c.cache.length ≥ c.maxProjects
  · rw [if_pos hge] at h
    cases hf : findEvictionCandidate c.cache c.lastAccess force now with
    | some victim =>
      rw [hf] at h
      injection h with h
      rw [← h]
      rfl
    | none =>
      rw [hf] at h
      by_cases hforce : force = true
      · rw [hforce, if_pos rfl] at h
        cases hc : c.cache with
        | nil => rw [hc] at h; injection h with h; rw [← h]
        | cons p rest =>
          rw [hc] at h
          injection h with h
          rw [← h]
          rfl
      · have hforce2 : force = false := by
          cases force
          · rfl
          · exact absurd rfl hforce
        rw [hforce2, if_neg (by simp)] at h
        exact Option.noConfusion h
  · rw [if_neg hge] at h
    injection h with h
    rw [← h]

/-- One operation preserves the capacity invariant. -/
theorem runOp_bound {α : Type} (maxP : Nat) (hmax : 0 < maxP) (c : MemoryCache α)
    (hc : c.maxProjects = maxP) (hlen : c.cache.length ≤ maxP) (op : CacheOp α) :
    (runOp c op).maxProjects = maxP ∧ (runOp c op).cache.length ≤ maxP := by
  cases op with
  | get p now =>
    unfold runOp MemoryCache.get
    dsimp only
    split
    next q hq =>
      refine ⟨hc, ?_⟩
      dsimp only
      rw [List.length_append]
      have hmem : ∃ r ∈ c.cache, r.1 = p := by
        have h1 := List.mem_of_find?_eq_some hq
        have h2 := List.find?_some hq
        exact ⟨q, h1, by simpa using h2⟩
      have := removeKey_length_of_mem hmem
      simp only [List.length_cons, List.length_nil]
      omega
    next hq => exact ⟨hc, hlen⟩
  | put p v e f now =>
    unfold runOp MemoryCache.put
    dsimp only
    by_cases hsz : e > c.maxBytesPerProject
    · rw [if_pos hsz]
      exact ⟨hc, hlen⟩
    · rw [if_neg hsz]
      split
      next he => exact ⟨hc, hlen⟩
      next c2 he =>
        dsimp only
        have hb := putEvict_some_length (hc ▸ hmax) (hc ▸ hlen) he
        refine ⟨by rw [hb.2, hc], ?_⟩
        have := setKey_length_le c2.cache p
          { value := v, cached_at := now, last_accessed := now }
        rw [hc] at hb
        omega
  | invalidate p =>
    unfold runOp MemoryCache.invalidate
    dsimp only
    by_cases h : c.cache.any (fun q => q.1 == p)
    · rw [if_pos h]
      exact ⟨hc, Nat.le_trans (removeKey_length_le _ _) hlen⟩
    · rw [if_neg h]
      exact ⟨hc, hlen⟩
  | clear =>
    unfold runOp MemoryCache.clear
    dsimp only
    exact ⟨hc, by simp⟩

/-- C8: starting from an empty cache, no operation sequence ever leaves more
than `max_projects` entries in memory, and an oversized entry is rejected
without evicting or replacing anything. -/
theorem c8_memory_cache_bounds (α : Type) (maxP maxB : Nat) (hmax : 0 < maxP)
    (ops : List (CacheOp α)) :
    (runOps (emptyMemoryCache α maxP maxB) ops).cache.length ≤ maxP ∧
    (∀ (c : MemoryCache α) (path : String) (v : α) (est : Nat) (force : Bool) (now : Nat),
      est > c.maxBytesPerProject →
      (c.put path v est force now).1 = false ∧
      (c.put path v est force now).2.cache = c.cache ∧
      (c.put path v est force now).2.lastAccess = c.lastAccess) := by
  constructor
  · have main : ∀ (ops : List (CacheOp α)) (c : MemoryCache α),
        c.maxProjects = maxP → c.cache.length ≤ maxP →
        (runOps c ops).maxProjects = maxP ∧ (runOps c ops).cache.length ≤ maxP := by
      intro ops
      induction ops with
      | nil => intro c h1 h2; exact ⟨h1, h2⟩
      | cons op ops ih =>
        intro c h1 h2
        have hstep := runOp_bound maxP hmax c h1 h2 op
        exact ih (runOp c op) hstep.1 hstep.2
    exact (main ops (emptyMemoryCache α maxP maxB) rfl (by simp [emptyMemoryCache])).2
  · intro c path v est force now hbig
    unfold MemoryCache.put
    rw [if_pos hbig]
    exact ⟨rfl, rfl, rfl⟩

/-- C3: at capacity with `force = false`: if every cached entry was accessed
within the 5-minute protection window, `put` is rejected and the state is
unchanged; otherwise `put` succeeds, evicting exactly an entry with the
oldest access time among the entries outside the protection window, and the
new entry is stored at the most-recently-used end with both clocks at
`now`. -/
theorem c3_put_at_capacity (α : Type) (c : MemoryCache α) (path : String) (v : α)
    (est now : Nat)
    (hcap : c.cache.length = c.maxProjects)
    (hsize : est ≤ c.maxBytesPerProject)
    (hnew : ∀ p ∈ c.cache, p.1 ≠ path) :
    ((∀ p ∈ c.cache, now - getKeyD c.lastAccess p.1 0 < 300) →
      c.put path v est false now = (false, c)) ∧
    ((∃ p ∈ c.cache, ¬ (now - getKeyD c.lastAccess p.1 0 < 300)) →
      ∃ victim,
        victim ∈ c.cache.map (fun p => p.1) ∧
        ¬ (now - getKeyD c.lastAccess victim 0 < 300) ∧
        (∀ p ∈ c.cache, ¬ (now - getKeyD c.lastAccess p.1 0 < 300) →
          getKeyD c.lastAccess victim 0 ≤ getKeyD c.lastAccess p.1 0) ∧
        (c.put path v est false now).1 = true ∧
        (c.put path v est false now).2.cache.map (fun p => p.1)
          = ((c.cache.map (fun p => p.1)).erase victim) ++ [path] ∧
        (c.put path v est false now).2.cache.find? (fun p => p.1 == path)
          = some (path, { value := v, cached_at := now, last_accessed := now })) := by
  have hsz : ¬ (est > c.maxBytesPerProject) := by omega
  have hge : c.cache.length ≥ c.maxProjects := by omega
  have hnoneInv : ∀ b : String × Nat, (none : Option (String × Nat)) = some b →
      b.2 = getKeyD c.lastAccess b.1 0 ∧ ¬ (now - b.2 < 300) :=
    fun b hb => Option.noConfusion hb
  constructor
  · intro hall
    have hfold : c.cache.foldl (evictionStep c.lastAccess false now) none = none :=
      evictionFold_all_protected _ _ _ _ hall
    unfold MemoryCache.put MemoryCache.putEvict findEvictionCandidate
    rw [if_neg hsz, if_pos hge, hfold]
    rfl
  · intro hex
    cases hfold : c.cache.foldl (evictionStep c.lastAccess false now) none with
    | none =>
      exfalso
      rcases (evictionFold_spec c.lastAccess now c.cache none hnoneInv).1 hfold with ⟨_, hall⟩
      rcases hex with ⟨p, hp, hup⟩
      exact hup (hall p hp)
    | some q =>
      rcases (evictionFold_spec c.lastAccess now c.cache none hnoneInv).2 q hfold
        with ⟨hq1, hq2, hqmin, _⟩
      have hmem : q.1 ∈ c.cache.map (fun p => p.1) := by
        rcases evictionFold_mem c.lastAccess false now c.cache none q hfold with h | h
        · exact Option.noConfusion h
        · exact h
      have hput : c.put path v est false now =
          (true,
            { c.evictKey q.1 with
              cache := setKey (removeKey c.cache q.1) path
                { value := v, cached_at := now, last_accessed := now },
              lastAccess := setKey (removeKey c.lastAccess q.1) path now }) := by
        unfold MemoryCache.put MemoryCache.putEvict findEvictionCandidate
        rw [if_neg hsz, if_pos hge, hfold]
        rfl
      have hnew2 : ∀ p ∈ removeKey c.cache q.1, p.1 ≠ path :=
        fun p hp => hnew p (removeKey_mem_fst hp)
      refine ⟨q.1, hmem, ?_, ?_, ?_, ?_, ?_⟩
      · rw [← hq1]; exact hq2
      · intro p hp hup
        rw [← hq1]
        exact hqmin p hp hup
      · rw [hput]
      · rw [hput]
        dsimp only
        rw [setKey_map_fst_of_not_mem hnew2, removeKey_map_fst]
      · rw [hput]
        dsimp only
        unfold setKey
        rw [if_neg (by
          intro hany
          rcases List.any_eq_true.mp hany with ⟨p, hp, hpk⟩
          exact hnew2 p hp (by simpa using hpk))]
        rw [findKey_append_right _ path hnew2]
        simp [List.find?]

/-- Witness input for C3: a cache at capacity (`max_projects = 2`), both
entries last accessed long before `now`. -/
def c3cache : MemoryCache Nat :=
  { cache := [("B", { value := 2, cached_at := 10, last_accessed := 10 }),
              ("A", { value := 1, cached_at := 0, last_accessed := 20 })],
    maxProjects := 2, maxBytesPerProject := 1000,
    lastAccess := [("B", 10), ("A", 20)] }

/-- Witness for C3 at a concrete at-capacity cache: the unprotected entry
with the oldest access time is evicted and the new entry stored. -/
theorem c3_put_at_capacity_witness :
    ∃ victim,
      victim ∈ c3cache.cache.map (fun p => p.1) ∧
      ¬ (1000 - getKeyD c3cache.lastAccess victim 0 < 300) ∧
      (∀ p ∈ c3cache.cache, ¬ (1000 - getKeyD c3cache.lastAccess p.1 0 < 300) →
        getKeyD c3cache.lastAccess victim 0 ≤ getKeyD c3cache.lastAccess p.1 0) ∧
      (c3cache.put "C" 7 10 false 1000).1 = true ∧
      (c3cache.put "C" 7 10 false 1000).2.cache.map (fun p => p.1)
        = ((c3cache.cache.map (fun p => p.1)).erase victim) ++ ["C"] ∧
      (c3cache.put "C" 7 10 false 1000).2.cache.find? (fun p => p.1 == "C")
        = some ("C", { value := 7, cached_at := 1000, last_accessed := 1000 }) :=
  (c3_put_at_capacity Nat c3cache "C" 7 10 1000 (by decide) (by decide) (by decide)).2
    ⟨("B", { value := 2, cached_at := 10, last_accessed := 10 }), by decide, by decide⟩

/-- Witness input for C8: a concrete run at `max_projects = 2`. -/
def c8ops : List (CacheOp Nat) :=
  [.put "A" 1 10 false 0, .put "B" 2 10 false 10, .get "A" 20,
   .put "C" 3 10 false 1000, .put "D" 4 10 true 1010, .invalidate "A", .clear,
   .put "E" 5 10 false 2000]

/-- Witness for C8 at a concrete operation sequence. -/
theorem c8_memory_cache_bounds_witness :
    (runOps (emptyMemoryCache Nat 2 1000) c8ops).cache.length ≤ 2 ∧
    (∀ (c : MemoryCache Nat) (path : String) (v : Nat) (est : Nat) (force : Bool) (now : Nat),
      est > c.maxBytesPerProject →
      (c.put path v est force now).1 = false ∧
      (c.put path v est force now).2.cache = c.cache ∧
      (c.put path v est force now).2.lastAccess = c.lastAccess) :=
  c8_memory_cache_bounds Nat 2 1000 (by decide) c8ops

/-! ## Disk cache (`sniffly/utils/local_cache.py`)

The filesystem is modelled as a list of source files (a directory listing in
iteration order); `stat` returns the byte size of the content and the
modification time in milliseconds.  The per-project cache directory holds a
metadata manifest (`file_checksums`), a serialized statistics document and a
serialized message list; the two artifact payloads are abstract types.  The
cache code never reads file contents — only `stat` results — which is
exactly what claim C9 exercises. -/

/-- One source file: name, content and modification time (milliseconds). -/
structure SourceFile where
  name : String
  content : String
  mtimeMs : Nat
deriving DecidableEq, Repr

/-- `stat.st_size`: the byte size of the content. -/
def stSize (f : SourceFile) : Nat := f.content.utf8ByteSize

/-- `int(stat.st_mtime)`: the modification time truncated to whole seconds. -/
def truncMtime (f : SourceFile) : Nat := f.mtimeMs / 1000

/-- `f"{stat.st_size}_{int(stat.st_mtime)}"`. -/
def fileChecksum (f : SourceFile) : String :=
  toString (stSize f) ++ "_" ++ toString (truncMtime f)

/-- `_calculate_checksums`: the fingerprint dict of all `*.jsonl` files. -/
def calculateChecksums (fs : List SourceFile) : List (String × String) :=
  (fs.filter (fun f => strBegins (⟨f.name.data.reverse⟩ : String) (⟨".jsonl".data.reverse⟩ : String))).map
    (fun f => (f.name, fileChecksum f))

/-- Python dict equality on the checksum manifests (order-insensitive,
key-by-key; directory listings never repeat a filename). -/
def dictEq (a b : List (String × String)) : Bool :=
  a.all (fun p => b.lookup p.1 == some p.2) && b.all (fun p => a.lookup p.1 == some p.2)

/-- The per-project disk cache directory: `metadata.json` (the manifest),
`stats.json` and `messages.json` (abstract payloads); `none` = file absent. -/
structure DiskCache (σ μ : Type) where
  metadata : Option (List (String × String)) := none
  stats : Option σ := none
  messages : Option μ := none
deriving DecidableEq, Repr

/-- `LocalCacheService.has_changes`: no manifest means changed; otherwise
compare the current fingerprints against the stored ones. -/
def hasChanges {σ μ : Type} (fs : List SourceFile) (c : DiskCache σ μ) : Bool :=
  match c.metadata with
  | none => true
  | some m => !(dictEq (calculateChecksums fs) m)

/-- `LocalCacheService.get_cached_stats`. -/
def getCachedStats {σ μ : Type} (fs : List SourceFile) (c : DiskCache σ μ) : Option σ :=
  if hasChanges fs c then none else c.stats

/-- `LocalCacheService.get_cached_messages`. -/
def getCachedMessages {σ μ : Type} (fs : List SourceFile) (c : DiskCache σ μ) : Option μ :=
  if hasChanges fs c then none else c.messages

/-- `LocalCacheService.save_cached_stats`: write the artifact, then rewrite
the manifest from the current filesystem. -/
def saveCachedStats {σ μ : Type} (fs : List SourceFile) (c : DiskCache σ μ) (v : σ) :
    DiskCache σ μ :=
  { c with stats := some v, metadata := some (calculateChecksums fs) }

/-- `LocalCacheService.save_cached_messages`. -/
def saveCachedMessages {σ μ : Type} (fs : List SourceFile) (c : DiskCache σ μ) (v : μ) :
    DiskCache σ μ :=
  { c with messages := some v, metadata := some (calculateChecksums fs) }

/-! ### Lemmas about the disk cache -/

theorem lookup_eq_some_of_mem {l : List (String × String)} {p : String × String}
    (hnd : (l.map (fun q => q.1)).Nodup) (hp : p ∈ l) :
    l.lookup p.1 = some p.2 := by
  induction l with
  | nil => simp at hp
  | cons q l ih =>
    rw [List.map_cons, List.nodup_cons] at hnd
    rcases List.mem_cons.mp hp with h | h
    · rw [h]
      simp [List.lookup]
    · have hne : p.1 ≠ q.1 := by
        intro he
        exact hnd.1 (he ▸ List.mem_map_of_mem (fun r => r.1) h)
      have hbeq : (p.1 == q.1) = false := by
        cases hb : p.1 == q.1
        · rfl
        · exact absurd (by simpa using hb) hne
      rw [List.lookup, hbeq]
      exact ih hnd.2 h

theorem lookup_mem {l : List (String × String)} {k : String} {v : String}
    (h : l.lookup k = some v) : (k, v) ∈ l := by
  induction l with
  | nil => simp [List.lookup] at h
  | cons q l ih =>
    rw [List.lookup] at h
    cases hk : k == q.1
    · rw [hk] at h
      exact List.mem_cons_of_mem _ (ih h)
    · rw [hk] at h
      injection h with h
      have hkq : k = q.1 := by simpa using hk
      rw [hkq, ← h]
      exact List.mem_cons_self q l

theorem dictEq_refl {l : List (String × String)} (hnd : (l.map (fun q => q.1)).Nodup) :
    dictEq l l = true := by
  unfold dictEq
  rw [Bool.and_eq_true]
  constructor <;>
    · rw [List.all_eq_true]
      intro p hp
      rw [lookup_eq_some_of_mem hnd hp]
      simp

theorem dictEq_lookup {a b : List (String × String)} (h : dictEq a b = true) :
    ∀ k, a.lookup k = b.lookup k := by
  unfold dictEq at h
  rw [Bool.and_eq_true, List.all_eq_true, List.all_eq_true] at h
  intro k
  cases ha : a.lookup k with
  | some v =>
    have hmem := lookup_mem ha
    have h2 : b.lookup k = some v := by simpa using h.1 (k, v) hmem
    rw [h2]
  | none =>
    cases hb : b.lookup k with
    | some w =>
      have hmem := lookup_mem hb
      have := h.2 (k, w) hmem
      simp at this
      rw [this] at ha
      exact Option.noConfusion ha
    | none => rfl

/-- C4: immediately after `save_cached_stats` or `save_cached_messages` with
the source files unchanged, `has_changes` is false and the saved value is
served; after any change to some file's fingerprint — value changed, file
added, or file removed — `has_changes` is true and both getters miss. -/
theorem c4_disk_cache_coherence (σ μ : Type) (fs fs2 : List SourceFile)
    (c : DiskCache σ μ) (v : σ) (w : μ)
    (hnd : ((calculateChecksums fs).map (fun q => q.1)).Nodup)
    (hdiff : ∃ name, (calculateChecksums fs2).lookup name ≠ (calculateChecksums fs).lookup name) :
    (hasChanges fs (saveCachedStats fs c v) = false ∧
      getCachedStats fs (saveCachedStats fs c v) = some v) ∧
    (hasChanges fs (saveCachedMessages fs c w) = false ∧
      getCachedMessages fs (saveCachedMessages fs c w) = some w) ∧
    (hasChanges fs2 (saveCachedStats fs c v) = true ∧
      getCachedStats fs2 (saveCachedStats fs c v) = none ∧
      getCachedMessages fs2 (saveCachedStats fs c v) = none) ∧
    (hasChanges fs2 (saveCachedMessages fs c w) = true ∧
      getCachedStats fs2 (saveCachedMessages fs c w) = none ∧
      getCachedMessages fs2 (saveCachedMessages fs c w) = none) := by
  have hunchanged : ∀ m : Option (List (String × String)),
      m = some (calculateChecksums fs) →
      (match m with
        | none => true
        | some mm => !(dictEq (calculateChecksums fs) mm)) = false := by
    intro m hm
    rw [hm]
    dsimp only
    rw [dictEq_refl hnd]
    rfl
  have hchanged : (!(dictEq (calculateChecksums fs2) (calculateChecksums fs))) = true := by
    rcases hdiff with ⟨name, hname⟩
    cases hde : dictEq (calculateChecksums fs2) (calculateChecksums fs)
    · rfl
    · exact absurd (dictEq_lookup hde name) hname
  have hA : hasChanges fs (saveCachedStats fs c v) = false := hunchanged _ rfl
  have hB : hasChanges fs (saveCachedMessages fs c w) = false := hunchanged _ rfl
  have hC : hasChanges fs2 (saveCachedStats fs c v) = true := hchanged
  have hD : hasChanges fs2 (saveCachedMessages fs c w) = true := hchanged
  refine ⟨⟨hA, ?_⟩, ⟨hB, ?_⟩, ⟨hC, ?_, ?_⟩, ⟨hD, ?_, ?_⟩⟩
  · unfold getCachedStats
    rw [hA]
    rfl
  · unfold getCachedMessages
    rw [hB]
    rfl
  · unfold getCachedStats
    rw [hC]
    rfl
  · unfold getCachedMessages
    rw [hC]
    rfl
  · unfold getCachedStats
    rw [hD]
    rfl
  · unfold getCachedMessages
    rw [hD]
    rfl

/-- Witness filesystem for C4: one log file. -/
def c4fs : List SourceFile := [{ name := "s1.jsonl", content := "abc", mtimeMs := 5000 }]

/-- The same file after growing by one byte. -/
def c4fs2 : List SourceFile := [{ name := "s1.jsonl", content := "abcd", mtimeMs := 5000 }]

/-- Witness for C4 at a concrete one-file project whose file grows. -/
theorem c4_disk_cache_coherence_witness :
    (hasChanges c4fs (saveCachedStats c4fs ({} : DiskCache Nat Nat) 42) = false ∧
      getCachedStats c4fs (saveCachedStats c4fs ({} : DiskCache Nat Nat) 42) = some 42) ∧
    (hasChanges c4fs (saveCachedMessages c4fs ({} : DiskCache Nat Nat) 7) = false ∧
      getCachedMessages c4fs (saveCachedMessages c4fs ({} : DiskCache Nat Nat) 7) = some 7) ∧
    (hasChanges c4fs2 (saveCachedStats c4fs ({} : DiskCache Nat Nat) 42) = true ∧
      getCachedStats c4fs2 (saveCachedStats c4fs ({} : DiskCache Nat Nat) 42) = none ∧
      getCachedMessages c4fs2 (saveCachedStats c4fs ({} : DiskCache Nat Nat) 42) = none) ∧
    (hasChanges c4fs2 (saveCachedMessages c4fs ({} : DiskCache Nat Nat) 7) = true ∧
      getCachedStats c4fs2 (saveCachedMessages c4fs ({} : DiskCache Nat Nat) 7) = none ∧
      getCachedMessages c4fs2 (saveCachedMessages c4fs ({} : DiskCache Nat Nat) 7) = none) :=
  c4_disk_cache_coherence Nat Nat c4fs c4fs2 {} 42 7 (by decide)
    ⟨"s1.jsonl", by decide⟩

/-- C9: the fingerprint change detection is blind to any modification that
preserves a file's byte size and whose new modification time truncates to
the same whole second: the content differs and the mtime differs, yet
`has_changes` stays false and both getters serve the stale values. -/
theorem c9_fingerprint_blind_spot :
    ∃ (f f2 : SourceFile),
      f.name = f2.name ∧ f.content ≠ f2.content ∧ f.mtimeMs ≠ f2.mtimeMs ∧
      stSize f = stSize f2 ∧ truncMtime f = truncMtime f2 ∧
      (hasChanges [f2] (saveCachedStats [f] ({} : DiskCache Nat Nat) 42) = false ∧
        getCachedStats [f2] (saveCachedStats [f] ({} : DiskCache Nat Nat) 42) = some 42) ∧
      (hasChanges [f2] (saveCachedMessages [f] ({} : DiskCache Nat Nat) 7) = false ∧
        getCachedMessages [f2] (saveCachedMessages [f] ({} : DiskCache Nat Nat) 7) = some 7) := by
  refine ⟨{ name := "s1.jsonl", content := "ab", mtimeMs := 5000 },
          { name := "s1.jsonl", content := "ba", mtimeMs := 5900 }, ?_⟩
  refine ⟨rfl, by decide, by decide, by decide, by decide, ⟨?_, ?_⟩, ⟨?_, ?_⟩⟩ <;> decide

/-! ## Tool-count reconciliation
(`_reconcile_tool_count`, `_infer_tool_count_from_content`, processor.py)

The six tool patterns use only case-insensitive literals, `.` (any char
except newline), `(?:...|...)` alternation, concatenation and `+`; they are
transcribed over a small derivative-based regex engine, and `re.search`
scans every start position. -/

/-- Regular expressions over the features the tool patterns need. -/
inductive Rx where
  | emp : Rx
  | eps : Rx
  | lit : Char → Rx
  | dot : Rx
  | alt : Rx → Rx → Rx
  | cat : Rx → Rx → Rx
  | star : Rx → Rx
deriving DecidableEq, Repr

/-- Does the pattern accept the empty string? -/
def Rx.nullable : Rx → Bool
  | .emp => false
  | .eps => true
  | .lit _ => false
  | .dot => false
  | .alt a b => a.nullable || b.nullable
  | .cat a b => a.nullable && b.nullable
  | .star _ => true

/-- Brzozowski derivative; literals compare case-insensitively
(`re.IGNORECASE`), `.` rejects newline. -/
def Rx.deriv : Rx → Char → Rx
  | .emp, _ => .emp
  | .eps, _ => .emp
  | .lit d, c => if c.toLower == d.toLower then .eps else .emp
  | .dot, c => if c == '\n' then .emp else .eps
  | .alt a b, c => .alt (a.deriv c) (b.deriv c)
  | .cat a b, c =>
    if a.nullable then .alt (.cat (a.deriv c) b) (b.deriv c) else .cat (a.deriv c) b
  | .star a, c => .cat (a.deriv c) (.star a)

/-- Does some prefix of the input match the pattern? -/
def Rx.matchesFrom : Rx → List Char → Bool
  | r, [] => r.nullable
  | r, c :: rest => r.nullable || (r.deriv c).matchesFrom rest

/-- Does the pattern match starting at some position?  (`re.search`.) -/
def Rx.searchIn : Rx → List Char → Bool
  | r, [] => r.matchesFrom []
  | r, c :: rest => r.matchesFrom (c :: rest) || r.searchIn rest

/-- `re.search(pattern, s, re.IGNORECASE) is not None`. -/
def reSearch (r : Rx) (s : String) : Bool := r.searchIn s.data

/-- A literal string as a pattern. -/
def rxStr (s : String) : Rx := s.data.foldr (fun c r => Rx.cat (Rx.lit c) r) Rx.eps

/-- `p+`. -/
def rxPlus (r : Rx) : Rx := Rx.cat r (Rx.star r)

/-- `(?:Read|Reading|Examined|Looking at) (?:file|the file|contents of) .+` -/
def readRx : Rx :=
  .cat (.alt (rxStr "Read") (.alt (rxStr "Reading") (.alt (rxStr "Examined") (rxStr "Looking at"))))
    (.cat (rxStr " ")
      (.cat (.alt (rxStr "file") (.alt (rxStr "the file") (rxStr "contents of")))
        (.cat (rxStr " ") (rxPlus Rx.dot))))

/-- `(?:Edit|Edited|Modified|Updated|Changed) .+` -/
def editRx : Rx :=
  .cat (.alt (rxStr "Edit")
      (.alt (rxStr "Edited") (.alt (rxStr "Modified") (.alt (rxStr "Updated") (rxStr "Changed")))))
    (.cat (rxStr " ") (rxPlus Rx.dot))

/-- `(?:Write|Wrote|Created|Creating) .+` -/
def writeRx : Rx :=
  .cat (.alt (rxStr "Write") (.alt (rxStr "Wrote") (.alt (rxStr "Created") (rxStr "Creating"))))
    (.cat (rxStr " ") (rxPlus Rx.dot))

/-- `(?:Ran|Executed|Running|Executing) (?:command|bash|script)` -/
def bashRx : Rx :=
  .cat (.alt (rxStr "Ran") (.alt (rxStr "Executed") (.alt (rxStr "Running") (rxStr "Executing"))))
    (.cat (rxStr " ") (.alt (rxStr "command") (.alt (rxStr "bash") (rxStr "script"))))

/-- `(?:Searched|Grepped|Found|Searching) .+ (?:in|across)` -/
def grepRx : Rx :=
  .cat (.alt (rxStr "Searched") (.alt (rxStr "Grepped") (.alt (rxStr "Found") (rxStr "Searching"))))
    (.cat (rxStr " ") (.cat (rxPlus Rx.dot) (.cat (rxStr " ") (.alt (rxStr "in") (rxStr "across")))))

/-- `(?:Created task|Task completed|Working on task|Launching)` -/
def taskRx : Rx :=
  .alt (rxStr "Created task")
    (.alt (rxStr "Task completed") (.alt (rxStr "Working on task") (rxStr "Launching")))

/-- The fixed `tool_patterns` table of `_infer_tool_count_from_content`. -/
def toolPatterns : List (String × Rx) :=
  [("Read", readRx), ("Edit", editRx), ("Write", writeRx),
   ("Bash", bashRx), ("Grep", grepRx), ("Task", taskRx)]

/-- One content block of a `message.content` array as read by the
reconciliation helpers (its `type` tag and `text` key). -/
structure RContentBlock where
  btype : String := ""
  text : String := ""
deriving DecidableEq, Repr

/-- A message dict as the reconciliation helpers read it: only
`msg["message"]["content"]` is accessed, and an absent `message` key, an
absent `content` key and an empty content list are all Python-falsy, so all
three are the empty list. -/
structure RMessage where
  messageContent : List RContentBlock := []
deriving DecidableEq, Repr

/-- The slice of an `Interaction` that `_reconcile_tool_count` reads. -/
structure RInteraction where
  tools_used : List ToolUse := []
  tool_results : List RMessage := []
  assistant_messages : List RMessage := []
  has_task_tool : Bool := false
deriving DecidableEq, Repr

/-- `_extract_message_content`: the `" "`-join of the text blocks. -/
def extractRMessageContent (m : RMessage) : String :=
  pyJoin " " ((m.messageContent.filter (fun b => b.btype == "text")).map (fun b => b.text))

/-- One step of the distinct-id loop: only truthy ids count, once each. -/
def seenIdsStep (seen : List String) (t : ToolUse) : List String :=
  if t.id != "" && !(seen.contains t.id) then seen ++ [t.id] else seen

/-- The distinct-id count of `_reconcile_tool_count`. -/
def distinctToolIdCount (tools : List ToolUse) : Nat :=
  (tools.foldl seenIdsStep []).length

/-- The tool-result cross-check count of `_reconcile_tool_count`. -/
def toolResultsCount (i : RInteraction) : Nat :=
  i.tool_results.foldl (fun n m =>
    if m.messageContent ≠ [] then
      n + m.messageContent.countP (fun b => b.btype == "tool_result")
    else n) 0

/-- The execution-result-marker check of `_infer_tool_count_from_content`:
`"[Tool Execution Result]" in content or "Used " in content` for some
assistant message. -/
def hasExecutionMarker (i : RInteraction) : Bool :=
  i.assistant_messages.any (fun m =>
    strContains (extractRMessageContent m) "[Tool Execution Result]" ||
    strContains (extractRMessageContent m) "Used ")

/-- `_infer_tool_count_from_content`: the set of tools whose pattern
matches some assistant message; when an execution-result marker is present,
the count is raised to at least 1; the matched count is returned in any
case. -/
def inferToolCountFromContent (i : RInteraction) : Nat :=
  let tools_found := toolPatterns.filter (fun p =>
    i.assistant_messages.any (fun m => reSearch p.2 (extractRMessageContent m)))
  if hasExecutionMarker i then max 1 tools_found.length
  else tools_found.length

/-- `_reconcile_tool_count`. -/
def reconcileToolCount (i : RInteraction) : Nat :=
  let c1 := distinctToolIdCount i.tools_used
  let results := toolResultsCount i
  let c2 := if i.has_task_tool then max c1 1 else c1
  let c3 := if results > c2 && !i.has_task_tool then results else c2
  if c3 == 0 then inferToolCountFromContent i else c3

/-! ### Lemmas about the tool-count reconciliation -/

theorem contains_iff_mem {l : List String} {a : String} : l.contains a = true ↔ a ∈ l :=
  List.elem_iff

theorem seenIdsFold_spec : ∀ (tools : List ToolUse) (seen : List String),
    seen.Nodup →
    ((tools.foldl seenIdsStep seen).Nodup ∧
      ∀ x, x ∈ tools.foldl seenIdsStep seen ↔
        (x ∈ seen ∨ (x ∈ tools.map (fun t => t.id) ∧ x ≠ ""))) := by
  intro tools
  induction tools with
  | nil =>
    intro seen hnd
    refine ⟨hnd, ?_⟩
    intro x
    simp
  | cons t ts ih =>
    intro seen hnd
    rw [List.foldl_cons]
    by_cases hc : (t.id != "") && !(seen.contains t.id)
    · have hstep : seenIdsStep seen t = seen ++ [t.id] := by
        unfold seenIdsStep
        rw [if_pos hc]
      rw [hstep]
      rw [Bool.and_eq_true] at hc
      have hid : t.id ≠ "" := by simpa using hc.1
      have hcontains : seen.contains t.id = false := by simpa using hc.2
      have hnotin : t.id ∉ seen := by
        intro hmem
        have h2 := contains_iff_mem.mpr hmem
        rw [hcontains] at h2
        exact Bool.noConfusion h2
      have hnd2 : (seen ++ [t.id]).Nodup := by
        rw [List.nodup_append]
        exact ⟨hnd, List.nodup_singleton _, by
          intro a ha hb
          rw [List.mem_singleton] at hb
          exact hnotin (hb ▸ ha)⟩
      rcases ih (seen ++ [t.id]) hnd2 with ⟨ihnd, ihmem⟩
      refine ⟨ihnd, ?_⟩
      intro x
      rw [ihmem x, List.mem_append, List.mem_singleton, List.map_cons, List.mem_cons]
      constructor
      · rintro ((h | h) | h)
        · exact Or.inl h
        · exact Or.inr ⟨Or.inl h, h ▸ hid⟩
        · exact Or.inr ⟨Or.inr h.1, h.2⟩
      · rintro (h | ⟨h | h, hne⟩)
        · exact Or.inl (Or.inl h)
        · exact Or.inl (Or.inr h)
        · exact Or.inr ⟨h, hne⟩
    · have hstep : seenIdsStep seen t = seen := by
        unfold seenIdsStep
        rw [if_neg hc]
      rw [hstep]
      have hdisj : t.id = "" ∨ t.id ∈ seen := by
        by_cases h1 : t.id = ""
        · exact Or.inl h1
        · right
          by_cases h2 : t.id ∈ seen
          · exact h2
          · exfalso
            apply hc
            rw [Bool.and_eq_true]
            refine ⟨by simpa using h1, ?_⟩
            rw [contains_false_of_not_mem h2]
            rfl
      rcases ih seen hnd with ⟨ihnd, ihmem⟩
      refine ⟨ihnd, ?_⟩
      intro x
      rw [ihmem x, List.map_cons, List.mem_cons]
      constructor
      · rintro (h | h)
        · exact Or.inl h
        · exact Or.inr ⟨Or.inr h.1, h.2⟩
      · rintro (h | ⟨h | h, hne⟩)
        · exact Or.inl h
        · rcases hdisj with h2 | h2
          · exact absurd (h ▸ h2) hne
          · exact Or.inl (h ▸ h2)
        · exact Or.inr ⟨h, hne⟩

/-- The distinct-id loop counts exactly the distinct non-empty tool ids. -/
theorem distinctToolIdCount_eq (tools : List ToolUse) :
    distinctToolIdCount tools
      = (((tools.map (fun t => t.id)).filter (fun id => id ≠ "")).dedup).length := by
  rcases seenIdsFold_spec tools [] List.nodup_nil with ⟨hnd, hmem⟩
  unfold distinctToolIdCount
  have hperm : (tools.foldl seenIdsStep []).Perm
      (((tools.map (fun t => t.id)).filter (fun id => id ≠ "")).dedup) := by
    rw [List.perm_ext_iff_of_nodup hnd (List.nodup_dedup _)]
    intro x
    rw [List.mem_dedup, List.mem_filter, hmem x]
    simp
  exact hperm.length_eq

/-- The tool-result loop computes the sum of per-message result counts. -/
theorem toolResultsCount_eq (i : RInteraction) :
    toolResultsCount i = (i.tool_results.map (fun m =>
      m.messageContent.countP (fun b => b.btype == "tool_result"))).sum := by
  unfold toolResultsCount
  have main : ∀ (l : List RMessage) (n : Nat),
      l.foldl (fun n m =>
        if m.messageContent ≠ [] then
          n + m.messageContent.countP (fun b => b.btype == "tool_result")
        else n) n
        = n + (l.map fun m => m.messageContent.countP (fun b => b.btype == "tool_result")).sum := by
    intro l
    induction l with
    | nil => intro n; simp
    | cons m l ih =>
      intro n
      rw [List.foldl_cons, List.map_cons, List.sum_cons]
      by_cases hm : m.messageContent ≠ []
      · rw [if_pos hm, ih]
        omega
      · rw [if_neg hm, ih]
        have hm2 : m.messageContent = [] := by
          by_cases h : m.messageContent = []
          · exact h
          · exact absurd h hm
        rw [hm2]
        simp
  rw [main]
  simp

/-- Execution-result markers are absent from a plain `Edited x` reply. -/
def c5Interaction : RInteraction :=
  { assistant_messages := [{ messageContent := [{ btype := "text", text := "Edited x" }] }] }

/-- C5, counterexample: an interaction with no recorded tools, no tool
results, no sub-agent tool, and a single assistant text `"Edited x"` that
matches the `Edit` pattern but carries no execution-result marker.  The
claim says the pattern-derived count is returned *only if* markers are
present, i.e. the reconciled count should be 0 here; the code returns the
matched count (1) unconditionally. -/
theorem c5_marker_counterexample :
    distinctToolIdCount c5Interaction.tools_used = 0 ∧
    toolResultsCount c5Interaction = 0 ∧
    c5Interaction.has_task_tool = false ∧
    hasExecutionMarker c5Interaction = false ∧
    reconcileToolCount c5Interaction = 1 := by
  refine ⟨by decide, by decide, by decide, by decide, by decide⟩

/-- C5 (amended): the reconciled tool count equals: the number of distinct
non-empty tool ids in `tools_used`; raised to at least 1 when a sub-agent
(`Task`) tool is present; replaced by the tool-result count when results
outnumber it and no sub-agent tool is present; and, when still zero, the
number of distinct tools matched by the fixed verb/tool text patterns —
that matched count being returned whether or not execution-result markers
are present, with the markers only raising it to at least 1. -/
theorem c5_tool_count_reconciliation (i : RInteraction) :
    reconcileToolCount i =
      (let distinct := (((i.tools_used.map (fun t => t.id)).filter (fun id => id ≠ "")).dedup).length
       let results := (i.tool_results.map (fun m =>
         m.messageContent.countP (fun b => b.btype == "tool_result"))).sum
       let base := if i.has_task_tool then max distinct 1 else distinct
       let base2 := if results > base ∧ i.has_task_tool = false then results else base
       if base2 = 0 then
         (let matched := toolPatterns.countP (fun p =>
            i.assistant_messages.any (fun m => reSearch p.2 (extractRMessageContent m)))
          if hasExecutionMarker i then max 1 matched else matched)
       else base2) := by
  unfold reconcileToolCount inferToolCountFromContent
  rw [distinctToolIdCount_eq, toolResultsCount_eq, List.countP_eq_length_filter]
  dsimp only
  simp only [beq_iff_eq, Bool.and_eq_true, decide_eq_true_eq, Bool.not_eq_true']


/-! ### C6 : the global statistics aggregator (`global_aggregator.py`)

Dates are modelled as absolute day numbers (`Int`); `datetime.now().date()`
is the parameter `today`, `timedelta(days=n)` is integer subtraction, and
`date.isoformat()` keys are the day numbers themselves.  Costs (Python
floats) are modelled as rationals. -/

/-- The `overview.total_tokens` sub-dict of a project's cached statistics. -/
structure GTokenTotals where
    input : Nat
    output : Nat
    cache_read : Nat
    cache_creation : Nat

/-- A per-model entry of a day bucket's `cost.by_model` dict. -/
structure GModelCost where
    input_cost : ℚ
    output_cost : ℚ
    cache_creation_cost : ℚ
    cache_read_cost : ℚ

/-- One `daily_stats` bucket: `tokens.input`, `tokens.output`,
`cost.total` and `cost.by_model`. -/
structure GDayData where
    tokens_input : Nat
    tokens_output : Nat
    cost_total : ℚ
    by_model : List (String × GModelCost)

/-- The slice of a project's cached statistics that the aggregator reads:
the `overview` section, `user_interactions.user_commands_analyzed`, and the
`daily_stats` dict (date to day bucket). -/
structure GProjectStats where
    overview_total_tokens : GTokenTotals
    overview_total_cost : ℚ
    user_commands_analyzed : Nat
    daily_stats : List (Int × GDayData)

/-- A project entry as supplied to `get_global_stats`. -/
structure GProject where
    log_path : String
    in_cache : Bool

/-- `_get_project_stats`: the memory-cache tier is consulted only when the
project is flagged `in_cache`, then the disk-cache tier; the processor is
never invoked.  The two tiers are abstract lookups keyed by `log_path`
(`none` covers both a miss and a falsy stats value). -/
def getProjectStats (mem disk : String → Option GProjectStats) (p : GProject) :
    Option GProjectStats :=
  match (if p.in_cache then mem p.log_path else none) with
  | some s => some s
  | none => disk p.log_path

/-- The mutable local state of `get_global_stats` during the project loop. -/
structure AggState where
    total_input : Nat
    total_output : Nat
    total_cache_read : Nat
    total_cache_write : Nat
    total_commands : Nat
    total_cost_all_time : ℚ
    daily_tokens : List (Int × (Nat × Nat))
    daily_costs : List (Int × ℚ)
    daily_cost_breakdown : List (Int × (ℚ × ℚ × ℚ))

/-- In-place update of the first binding of `k` in an association list
(Python dict update of an existing key). -/
def updKey {α : Type} (k : Int) (f : α → α) : List (Int × α) → List (Int × α)
  | [] => []
  | (k2, v) :: rest => if k2 = k then (k2, f v) :: rest else (k2, v) :: updKey k f rest

/-- The `by_model` inner loop: accumulate input / output / cache cost. -/
def addByModel (b : ℚ × ℚ × ℚ) (ms : List (String × GModelCost)) : ℚ × ℚ × ℚ :=
  ms.foldl (fun b m =>
    (b.1 + m.2.input_cost, b.2.1 + m.2.output_cost,
     b.2.2 + m.2.cache_creation_cost + m.2.cache_read_cost)) b

/-- Body of the `daily_stats` loop: a bucket contributes only when its date
lies in `[startD, endD]` *and* is a key of the pre-initialised
`daily_tokens` window. -/
def dailyStep (startD endD : Int) (st : AggState) (e : Int × GDayData) : AggState :=
  if startD ≤ e.1 ∧ e.1 ≤ endD then
    if (st.daily_tokens.lookup e.1).isSome then
      { st with
        daily_tokens := updKey e.1
          (fun t => (t.1 + e.2.tokens_input, t.2 + e.2.tokens_output)) st.daily_tokens,
        daily_costs := updKey e.1 (fun c => c + e.2.cost_total) st.daily_costs,
        daily_cost_breakdown := updKey e.1 (fun b => addByModel b e.2.by_model)
          st.daily_cost_breakdown }
    else st
  else st

/-- The all-time accumulations of the project loop: every total is bumped
straight from the project's overview section. -/
def bumpTotals (st : AggState) (s : GProjectStats) : AggState :=
  { st with
    total_input := st.total_input + s.overview_total_tokens.input,
    total_output := st.total_output + s.overview_total_tokens.output,
    total_cache_read := st.total_cache_read + s.overview_total_tokens.cache_read,
    total_cache_write := st.total_cache_write + s.overview_total_tokens.cache_creation,
    total_commands := st.total_commands + s.user_commands_analyzed,
    total_cost_all_time := st.total_cost_all_time + s.overview_total_cost }

/-- Per-project body of the aggregation loop: all-time totals come straight
from the overview section, then every `daily_stats` bucket is folded in. -/
def projectStep (mem disk : String → Option GProjectStats) (startD endD : Int)
    (st : AggState) (p : GProject) : AggState :=
  match getProjectStats mem disk p with
  | none => st
  | some s => s.daily_stats.foldl (dailyStep startD endD) (bumpTotals st s)

/-- The 30 calendar days ending at `today`, in ascending order. -/
def windowDates (today : Int) : List Int :=
  (List.range 30).map (fun k : Nat => today - 29 + (k : Int))

/-- The zero-initialised window maps of `get_global_stats`. -/
def initAggState (today : Int) : AggState :=
  { total_input := 0, total_output := 0, total_cache_read := 0, total_cache_write := 0,
    total_commands := 0, total_cost_all_time := 0,
    daily_tokens := (windowDates today).map (fun d => (d, (0, 0))),
    daily_costs := (windowDates today).map (fun d => (d, 0)),
    daily_cost_breakdown := (windowDates today).map (fun d => (d, (0, 0, 0))) }

/-- State after the whole project loop. -/
def finalAggState (mem disk : String → Option GProjectStats)
    (projects : List GProject) (today : Int) : AggState :=
  projects.foldl (projectStep mem disk (today - 29) today) (initAggState today)

/-- Result record of `get_global_stats` (the fields the claim concerns);
each daily-cost entry carries `(cost, input_cost, output_cost, cache_cost)`. -/
structure GlobalStats where
    total_projects : Nat
    total_input_tokens : Nat
    total_output_tokens : Nat
    total_cache_read_tokens : Nat
    total_cache_write_tokens : Nat
    total_commands : Nat
    total_cost : ℚ
    daily_token_usage : List (Int × (Nat × Nat))
    daily_costs : List (Int × (ℚ × ℚ × ℚ × ℚ))

/-- `get_global_stats`: fold every project through the two cache tiers into
the zero-initialised 30-day window, then read the window back in date
order. -/
def getGlobalStats (mem disk : String → Option GProjectStats)
    (projects : List GProject) (today : Int) : GlobalStats :=
  { total_projects := projects.length,
    total_input_tokens := (finalAggState mem disk projects today).total_input,
    total_output_tokens := (finalAggState mem disk projects today).total_output,
    total_cache_read_tokens := (finalAggState mem disk projects today).total_cache_read,
    total_cache_write_tokens := (finalAggState mem disk projects today).total_cache_write,
    total_commands := (finalAggState mem disk projects today).total_commands,
    total_cost := (finalAggState mem disk projects today).total_cost_all_time,
    daily_token_usage := (windowDates today).map (fun d =>
      (d, ((finalAggState mem disk projects today).daily_tokens.lookup d).getD (0, 0))),
    daily_costs := (windowDates today).map (fun d =>
      (d, (((finalAggState mem disk projects today).daily_costs.lookup d).getD 0,
           (((finalAggState mem disk projects today).daily_cost_breakdown.lookup d).getD
             (0, 0, 0)).1,
           (((finalAggState mem disk projects today).daily_cost_breakdown.lookup d).getD
             (0, 0, 0)).2.1,
           (((finalAggState mem disk projects today).daily_cost_breakdown.lookup d).getD
             (0, 0, 0)).2.2))) }

/-- Tokens(input) contributed by the buckets of one project at date `d`. -/
def dayTokensIn (l : List (Int × GDayData)) (d : Int) : Nat :=
  ((l.filter (fun e => e.1 == d)).map (fun e => e.2.tokens_input)).sum

/-- Tokens(output) contributed by the buckets of one project at date `d`. -/
def dayTokensOut (l : List (Int × GDayData)) (d : Int) : Nat :=
  ((l.filter (fun e => e.1 == d)).map (fun e => e.2.tokens_output)).sum

/-- Total cost contributed by the buckets of one project at date `d`. -/
def dayCost (l : List (Int × GDayData)) (d : Int) : ℚ :=
  ((l.filter (fun e => e.1 == d)).map (fun e => e.2.cost_total)).sum


/-! ### Lemmas about the global aggregator -/

theorem updKey_map_fst {α : Type} (k : Int) (f : α → α) (l : List (Int × α)) :
    (updKey k f l).map Prod.fst = l.map Prod.fst := by
  induction l with
  | nil => rfl
  | cons p rest ih =>
    rcases p with ⟨k2, v⟩
    unfold updKey
    by_cases h : k2 = k
    · rw [if_pos h]
      rfl
    · rw [if_neg h, List.map_cons, List.map_cons, ih]

theorem lookup_updKey_self {α : Type} (k : Int) (f : α → α) (l : List (Int × α)) :
    (updKey k f l).lookup k = (l.lookup k).map f := by
  induction l with
  | nil => rfl
  | cons p rest ih =>
    rcases p with ⟨k2, v⟩
    unfold updKey
    by_cases h : k2 = k
    · have hb : (k == k2) = true := by simp [h]
      rw [if_pos h, List.lookup, List.lookup, hb]
      rfl
    · have hb : (k == k2) = false := by
        cases hbb : k == k2
        · rfl
        · have hkk : k = k2 := by simpa using hbb
          exact absurd hkk.symm h
      rw [if_neg h, List.lookup, List.lookup, hb, ih]

theorem lookup_updKey_ne {α : Type} {k d : Int} (f : α → α) (l : List (Int × α))
    (h : d ≠ k) : (updKey k f l).lookup d = l.lookup d := by
  induction l with
  | nil => rfl
  | cons p rest ih =>
    rcases p with ⟨k2, v⟩
    unfold updKey
    by_cases h2 : k2 = k
    · have hb : (d == k2) = false := by
        cases hbb : d == k2
        · rfl
        · have hdk : d = k2 := by simpa using hbb
          exact absurd (hdk.trans h2) h
      rw [if_pos h2, List.lookup, List.lookup, hb]
    · rw [if_neg h2, List.lookup, List.lookup]
      cases hb : d == k2
      · exact ih
      · rfl

theorem lookup_none_of_map_fst_eq {α β : Type} {l : List (Int × α)} {m : List (Int × β)}
    (hsame : l.map Prod.fst = m.map Prod.fst) {k : Int} (h : l.lookup k = none) :
    m.lookup k = none := by
  induction l generalizing m with
  | nil =>
    cases m with
    | nil => rfl
    | cons q m2 => simp at hsame
  | cons p rest ih =>
    cases m with
    | nil => simp at hsame
    | cons q m2 =>
      rcases p with ⟨k2, v⟩
      rcases q with ⟨k3, w⟩
      rw [List.map_cons, List.map_cons] at hsame
      injection hsame with h1 h2
      rw [List.lookup] at h
      rw [List.lookup]
      cases hb : k == k2
      · rw [hb] at h
        have h1x : k2 = k3 := h1
        have hb2 : (k == k3) = false := by rw [← h1x]; exact hb
        rw [hb2]
        exact ih h2 h
      · rw [hb] at h
        exact Option.noConfusion h

theorem lookup_map_pair {α : Type} (f : Int → α) (l : List Int) (d : Int) (h : d ∈ l) :
    (l.map (fun x => (x, f x))).lookup d = some (f d) := by
  induction l with
  | nil => cases h
  | cons x xs ih =>
    rw [List.map_cons, List.lookup]
    cases hb : d == x
    · have hne : d ≠ x := by
        intro he
        rw [he] at hb
        simp at hb
      have hm : d ∈ xs := by
        rcases List.mem_cons.mp h with h1 | h1
        · exact absurd h1 hne
        · exact h1
      exact ih hm
    · have he : d = x := by simpa using hb
      subst he
      rfl

theorem map_congr_mem {α β : Type} {l : List α} {f g : α → β}
    (h : ∀ a ∈ l, f a = g a) : l.map f = l.map g := by
  induction l with
  | nil => rfl
  | cons x xs ih =>
    rw [List.map_cons, List.map_cons, h x (List.mem_cons_self x xs),
      ih (fun a ha => h a (List.mem_cons_of_mem x ha))]

theorem windowDates_bounds {today d : Int} (h : d ∈ windowDates today) :
    today - 29 ≤ d ∧ d ≤ today := by
  unfold windowDates at h
  rw [List.mem_map] at h
  rcases h with ⟨k, hk, he⟩
  rw [List.mem_range] at hk
  omega

theorem dayTokensIn_cons_eq {e : Int × GDayData} {l : List (Int × GDayData)} {d : Int}
    (he : e.1 = d) : dayTokensIn (e :: l) d = e.2.tokens_input + dayTokensIn l d := by
  unfold dayTokensIn
  rw [List.filter_cons, if_pos (by simp [he] : (e.1 == d) = true), List.map_cons, List.sum_cons]

theorem dayTokensIn_cons_ne {e : Int × GDayData} {l : List (Int × GDayData)} {d : Int}
    (he : e.1 ≠ d) : dayTokensIn (e :: l) d = dayTokensIn l d := by
  unfold dayTokensIn
  rw [List.filter_cons, if_neg (by simp [he] : ¬ (e.1 == d) = true)]

theorem dayTokensOut_cons_eq {e : Int × GDayData} {l : List (Int × GDayData)} {d : Int}
    (he : e.1 = d) : dayTokensOut (e :: l) d = e.2.tokens_output + dayTokensOut l d := by
  unfold dayTokensOut
  rw [List.filter_cons, if_pos (by simp [he] : (e.1 == d) = true), List.map_cons, List.sum_cons]

theorem dayTokensOut_cons_ne {e : Int × GDayData} {l : List (Int × GDayData)} {d : Int}
    (he : e.1 ≠ d) : dayTokensOut (e :: l) d = dayTokensOut l d := by
  unfold dayTokensOut
  rw [List.filter_cons, if_neg (by simp [he] : ¬ (e.1 == d) = true)]

theorem dayCost_cons_eq {e : Int × GDayData} {l : List (Int × GDayData)} {d : Int}
    (he : e.1 = d) : dayCost (e :: l) d = e.2.cost_total + dayCost l d := by
  unfold dayCost
  rw [List.filter_cons, if_pos (by simp [he] : (e.1 == d) = true), List.map_cons, List.sum_cons]

theorem dayCost_cons_ne {e : Int × GDayData} {l : List (Int × GDayData)} {d : Int}
    (he : e.1 ≠ d) : dayCost (e :: l) d = dayCost l d := by
  unfold dayCost
  rw [List.filter_cons, if_neg (by simp [he] : ¬ (e.1 == d) = true)]


theorem dailyStep_totals (startD endD : Int) (st : AggState) (e : Int × GDayData) :
    (dailyStep startD endD st e).total_input = st.total_input ∧
    (dailyStep startD endD st e).total_output = st.total_output ∧
    (dailyStep startD endD st e).total_cache_read = st.total_cache_read ∧
    (dailyStep startD endD st e).total_cache_write = st.total_cache_write ∧
    (dailyStep startD endD st e).total_commands = st.total_commands ∧
    (dailyStep startD endD st e).total_cost_all_time = st.total_cost_all_time := by
  unfold dailyStep
  by_cases hw : startD ≤ e.1 ∧ e.1 ≤ endD
  · rw [if_pos hw]
    by_cases hs : (st.daily_tokens.lookup e.1).isSome = true
    · rw [if_pos hs]
      exact ⟨rfl, rfl, rfl, rfl, rfl, rfl⟩
    · rw [if_neg hs]
      exact ⟨rfl, rfl, rfl, rfl, rfl, rfl⟩
  · rw [if_neg hw]
    exact ⟨rfl, rfl, rfl, rfl, rfl, rfl⟩

theorem dailyStep_map_fst (startD endD : Int) (st : AggState) (e : Int × GDayData) :
    (dailyStep startD endD st e).daily_tokens.map Prod.fst = st.daily_tokens.map Prod.fst ∧
    (dailyStep startD endD st e).daily_costs.map Prod.fst = st.daily_costs.map Prod.fst := by
  unfold dailyStep
  by_cases hw : startD ≤ e.1 ∧ e.1 ≤ endD
  · rw [if_pos hw]
    by_cases hs : (st.daily_tokens.lookup e.1).isSome = true
    · rw [if_pos hs]
      exact ⟨updKey_map_fst _ _ _, updKey_map_fst _ _ _⟩
    · rw [if_neg hs]
      exact ⟨rfl, rfl⟩
  · rw [if_neg hw]
    exact ⟨rfl, rfl⟩

theorem dailyStep_lookup_eq (startD endD : Int) (st : AggState) (e : Int × GDayData)
    (hsame : st.daily_tokens.map Prod.fst = st.daily_costs.map Prod.fst)
    {d : Int} (he : e.1 = d) (h1 : startD ≤ d) (h2 : d ≤ endD) :
    (dailyStep startD endD st e).daily_tokens.lookup d =
      (st.daily_tokens.lookup d).map
        (fun t => (t.1 + e.2.tokens_input, t.2 + e.2.tokens_output)) ∧
    (dailyStep startD endD st e).daily_costs.lookup d =
      (st.daily_costs.lookup d).map (fun c => c + e.2.cost_total) := by
  have hw : startD ≤ e.1 ∧ e.1 ≤ endD := by
    rw [he]
    exact ⟨h1, h2⟩
  by_cases hs : (st.daily_tokens.lookup e.1).isSome = true
  · have hstep : dailyStep startD endD st e = { st with
        daily_tokens := updKey e.1
          (fun t => (t.1 + e.2.tokens_input, t.2 + e.2.tokens_output)) st.daily_tokens,
        daily_costs := updKey e.1 (fun c => c + e.2.cost_total) st.daily_costs,
        daily_cost_breakdown := updKey e.1 (fun b => addByModel b e.2.by_model)
          st.daily_cost_breakdown } := by
      unfold dailyStep
      rw [if_pos hw, if_pos hs]
    rw [hstep, he]
    exact ⟨lookup_updKey_self d _ st.daily_tokens, lookup_updKey_self d _ st.daily_costs⟩
  · have hstep : dailyStep startD endD st e = st := by
      unfold dailyStep
      rw [if_pos hw, if_neg hs]
    rw [hstep, he] at *
    have htok : st.daily_tokens.lookup d = none := by
      cases hx : st.daily_tokens.lookup d
      · rfl
      · rw [hx] at hs
        simp at hs
    have hcost : st.daily_costs.lookup d = none := lookup_none_of_map_fst_eq hsame htok
    rw [htok, hcost]
    exact ⟨rfl, rfl⟩

theorem dailyStep_lookup_ne (startD endD : Int) (st : AggState) (e : Int × GDayData)
    {d : Int} (he : e.1 ≠ d) :
    (dailyStep startD endD st e).daily_tokens.lookup d = st.daily_tokens.lookup d ∧
    (dailyStep startD endD st e).daily_costs.lookup d = st.daily_costs.lookup d := by
  unfold dailyStep
  by_cases hw : startD ≤ e.1 ∧ e.1 ≤ endD
  · rw [if_pos hw]
    by_cases hs : (st.daily_tokens.lookup e.1).isSome = true
    · rw [if_pos hs]
      exact ⟨lookup_updKey_ne _ _ (Ne.symm he), lookup_updKey_ne _ _ (Ne.symm he)⟩
    · rw [if_neg hs]
      exact ⟨rfl, rfl⟩
  · rw [if_neg hw]
    exact ⟨rfl, rfl⟩

theorem dailyFold_spec (startD endD : Int) (l : List (Int × GDayData)) :
    ∀ st : AggState, st.daily_tokens.map Prod.fst = st.daily_costs.map Prod.fst →
      (l.foldl (dailyStep startD endD) st).total_input = st.total_input ∧
      (l.foldl (dailyStep startD endD) st).total_output = st.total_output ∧
      (l.foldl (dailyStep startD endD) st).total_cache_read = st.total_cache_read ∧
      (l.foldl (dailyStep startD endD) st).total_cache_write = st.total_cache_write ∧
      (l.foldl (dailyStep startD endD) st).total_commands = st.total_commands ∧
      (l.foldl (dailyStep startD endD) st).total_cost_all_time = st.total_cost_all_time ∧
      (l.foldl (dailyStep startD endD) st).daily_tokens.map Prod.fst
        = st.daily_tokens.map Prod.fst ∧
      (l.foldl (dailyStep startD endD) st).daily_costs.map Prod.fst
        = st.daily_costs.map Prod.fst ∧
      ∀ d : Int, startD ≤ d → d ≤ endD →
        (l.foldl (dailyStep startD endD) st).daily_tokens.lookup d =
          (st.daily_tokens.lookup d).map
            (fun t => (t.1 + dayTokensIn l d, t.2 + dayTokensOut l d)) ∧
        (l.foldl (dailyStep startD endD) st).daily_costs.lookup d =
          (st.daily_costs.lookup d).map (fun c => c + dayCost l d) := by
  induction l with
  | nil =>
    intro st hsame
    refine ⟨rfl, rfl, rfl, rfl, rfl, rfl, rfl, rfl, ?_⟩
    intro d h1 h2
    constructor
    · rw [List.foldl_nil]
      cases hx : st.daily_tokens.lookup d
      · rfl
      · simp [dayTokensIn, dayTokensOut]
    · rw [List.foldl_nil]
      cases hx : st.daily_costs.lookup d
      · rfl
      · simp [dayCost]
  | cons e rest ih =>
    intro st hsame
    rw [List.foldl_cons]
    obtain ⟨ht1, ht2⟩ := dailyStep_map_fst startD endD st e
    have hsame2 : (dailyStep startD endD st e).daily_tokens.map Prod.fst =
        (dailyStep startD endD st e).daily_costs.map Prod.fst := by
      rw [ht1, ht2]
      exact hsame
    obtain ⟨g1, g2, g3, g4, g5, g6, g7, g8, g9⟩ := ih (dailyStep startD endD st e) hsame2
    obtain ⟨s1, s2, s3, s4, s5, s6⟩ := dailyStep_totals startD endD st e
    refine ⟨g1.trans s1, g2.trans s2, g3.trans s3, g4.trans s4, g5.trans s5, g6.trans s6,
      g7.trans ht1, g8.trans ht2, ?_⟩
    intro d h1 h2
    obtain ⟨q1, q2⟩ := g9 d h1 h2
    by_cases he : e.1 = d
    · obtain ⟨p1, p2⟩ := dailyStep_lookup_eq startD endD st e hsame he h1 h2
      constructor
      · rw [q1, p1, dayTokensIn_cons_eq he, dayTokensOut_cons_eq he]
        cases hx : st.daily_tokens.lookup d
        · rfl
        · dsimp only [Option.map]
          simp only [Option.some.injEq, Prod.mk.injEq]
          omega
      · rw [q2, p2, dayCost_cons_eq he]
        cases hx : st.daily_costs.lookup d
        · rfl
        · dsimp only [Option.map]
          simp only [Option.some.injEq]
          rw [add_assoc]
    · obtain ⟨p1, p2⟩ := dailyStep_lookup_ne startD endD st e he
      constructor
      · rw [q1, p1, dayTokensIn_cons_ne he, dayTokensOut_cons_ne he]
      · rw [q2, p2, dayCost_cons_ne he]


theorem aggFold_spec (mem disk : String → Option GProjectStats) (startD endD : Int)
    (ps : List GProject) :
    ∀ st : AggState, st.daily_tokens.map Prod.fst = st.daily_costs.map Prod.fst →
      (ps.foldl (projectStep mem disk startD endD) st).total_input
        = st.total_input + ((ps.filterMap (getProjectStats mem disk)).map
            (fun s => s.overview_total_tokens.input)).sum ∧
      (ps.foldl (projectStep mem disk startD endD) st).total_output
        = st.total_output + ((ps.filterMap (getProjectStats mem disk)).map
            (fun s => s.overview_total_tokens.output)).sum ∧
      (ps.foldl (projectStep mem disk startD endD) st).total_cache_read
        = st.total_cache_read + ((ps.filterMap (getProjectStats mem disk)).map
            (fun s => s.overview_total_tokens.cache_read)).sum ∧
      (ps.foldl (projectStep mem disk startD endD) st).total_cache_write
        = st.total_cache_write + ((ps.filterMap (getProjectStats mem disk)).map
            (fun s => s.overview_total_tokens.cache_creation)).sum ∧
      (ps.foldl (projectStep mem disk startD endD) st).total_commands
        = st.total_commands + ((ps.filterMap (getProjectStats mem disk)).map
            (fun s => s.user_commands_analyzed)).sum ∧
      (ps.foldl (projectStep mem disk startD endD) st).total_cost_all_time
        = st.total_cost_all_time + ((ps.filterMap (getProjectStats mem disk)).map
            (fun s => s.overview_total_cost)).sum ∧
      (ps.foldl (projectStep mem disk startD endD) st).daily_tokens.map Prod.fst
        = st.daily_tokens.map Prod.fst ∧
      (ps.foldl (projectStep mem disk startD endD) st).daily_costs.map Prod.fst
        = st.daily_costs.map Prod.fst ∧
      ∀ d : Int, startD ≤ d → d ≤ endD →
        (ps.foldl (projectStep mem disk startD endD) st).daily_tokens.lookup d =
          (st.daily_tokens.lookup d).map (fun t =>
            (t.1 + ((ps.filterMap (getProjectStats mem disk)).map
              (fun s => dayTokensIn s.daily_stats d)).sum,
             t.2 + ((ps.filterMap (getProjectStats mem disk)).map
              (fun s => dayTokensOut s.daily_stats d)).sum)) ∧
        (ps.foldl (projectStep mem disk startD endD) st).daily_costs.lookup d =
          (st.daily_costs.lookup d).map (fun c =>
            c + ((ps.filterMap (getProjectStats mem disk)).map
              (fun s => dayCost s.daily_stats d)).sum) := by
  induction ps with
  | nil =>
    intro st hsame
    refine ⟨by simp, by simp, by simp, by simp, by simp, by simp, rfl, rfl, ?_⟩
    intro d h1 h2
    constructor
    · rw [List.foldl_nil]
      cases hx : st.daily_tokens.lookup d
      · rfl
      · simp
    · rw [List.foldl_nil]
      cases hx : st.daily_costs.lookup d
      · rfl
      · simp
  | cons p ps2 ih =>
    intro st hsame
    rw [List.foldl_cons]
    cases hgp : getProjectStats mem disk p with
    | none =>
      have hstep : projectStep mem disk startD endD st p = st := by
        unfold projectStep
        rw [hgp]
      rw [hstep, List.filterMap_cons_none hgp]
      exact ih st hsame
    | some s =>
      have hstep : projectStep mem disk startD endD st p =
          s.daily_stats.foldl (dailyStep startD endD) (bumpTotals st s) := by
        unfold projectStep
        rw [hgp]
      rw [hstep, List.filterMap_cons_some hgp]
      have hsameB : (bumpTotals st s).daily_tokens.map Prod.fst =
          (bumpTotals st s).daily_costs.map Prod.fst := hsame
      obtain ⟨f1, f2, f3, f4, f5, f6, f7, f8, f9⟩ :=
        dailyFold_spec startD endD s.daily_stats (bumpTotals st s) hsameB
      obtain ⟨g1, g2, g3, g4, g5, g6, g7, g8, g9⟩ :=
        ih (s.daily_stats.foldl (dailyStep startD endD) (bumpTotals st s))
          (by rw [f7, f8]; exact hsameB)
      refine ⟨?_, ?_, ?_, ?_, ?_, ?_, ?_, ?_, ?_⟩
      · rw [g1, f1, List.map_cons, List.sum_cons]
        simp only [bumpTotals]
        omega
      · rw [g2, f2, List.map_cons, List.sum_cons]
        simp only [bumpTotals]
        omega
      · rw [g3, f3, List.map_cons, List.sum_cons]
        simp only [bumpTotals]
        omega
      · rw [g4, f4, List.map_cons, List.sum_cons]
        simp only [bumpTotals]
        omega
      · rw [g5, f5, List.map_cons, List.sum_cons]
        simp only [bumpTotals]
        omega
      · rw [g6, f6, List.map_cons, List.sum_cons]
        simp only [bumpTotals]
        rw [add_assoc]
      · exact (g7.trans f7).trans rfl
      · exact (g8.trans f8).trans rfl
      · intro d h1 h2
        obtain ⟨q1, q2⟩ := g9 d h1 h2
        obtain ⟨r1, r2⟩ := f9 d h1 h2
        have hbt1 : (bumpTotals st s).daily_tokens.lookup d = st.daily_tokens.lookup d := rfl
        have hbt2 : (bumpTotals st s).daily_costs.lookup d = st.daily_costs.lookup d := rfl
        constructor
        · rw [q1, r1, hbt1, List.map_cons, List.sum_cons, List.map_cons, List.sum_cons]
          cases hx : st.daily_tokens.lookup d
          · rfl
          · dsimp only [Option.map]
            simp only [Option.some.injEq, Prod.mk.injEq]
            omega
        · rw [q2, r2, hbt2, List.map_cons, List.sum_cons]
          cases hx : st.daily_costs.lookup d
          · rfl
          · dsimp only [Option.map]
            simp only [Option.some.injEq]
            rw [add_assoc]


/-- C6: `get_global_stats` reads each project's statistics only through the
memory-cache and disk-cache tiers (`getProjectStats`), never the processor;
its all-time token / command / cost totals are the direct sums of every
available project's overview fields (which include undated messages), while
the daily token and cost series cover exactly the 30 calendar days ending
`today`, each day summing precisely the projects' `daily_stats` buckets
whose date equals that in-window day — buckets outside the window, and
messages lacking timestamps (which produce no bucket), are excluded from
the series only. -/
theorem c6_global_aggregation (mem disk : String → Option GProjectStats)
    (projects : List GProject) (today : Int) :
    (getGlobalStats mem disk projects today).total_projects = projects.length ∧
    (getGlobalStats mem disk projects today).total_input_tokens =
      ((projects.filterMap (getProjectStats mem disk)).map
        (fun s => s.overview_total_tokens.input)).sum ∧
    (getGlobalStats mem disk projects today).total_output_tokens =
      ((projects.filterMap (getProjectStats mem disk)).map
        (fun s => s.overview_total_tokens.output)).sum ∧
    (getGlobalStats mem disk projects today).total_cache_read_tokens =
      ((projects.filterMap (getProjectStats mem disk)).map
        (fun s => s.overview_total_tokens.cache_read)).sum ∧
    (getGlobalStats mem disk projects today).total_cache_write_tokens =
      ((projects.filterMap (getProjectStats mem disk)).map
        (fun s => s.overview_total_tokens.cache_creation)).sum ∧
    (getGlobalStats mem disk projects today).total_commands =
      ((projects.filterMap (getProjectStats mem disk)).map
        (fun s => s.user_commands_analyzed)).sum ∧
    (getGlobalStats mem disk projects today).total_cost =
      ((projects.filterMap (getProjectStats mem disk)).map
        (fun s => s.overview_total_cost)).sum ∧
    (getGlobalStats mem disk projects today).daily_token_usage =
      (windowDates today).map (fun d =>
        (d, (((projects.filterMap (getProjectStats mem disk)).map
                (fun s => dayTokensIn s.daily_stats d)).sum,
             ((projects.filterMap (getProjectStats mem disk)).map
                (fun s => dayTokensOut s.daily_stats d)).sum))) ∧
    (getGlobalStats mem disk projects today).daily_costs.map (fun e => (e.1, e.2.1)) =
      (windowDates today).map (fun d =>
        (d, ((projects.filterMap (getProjectStats mem disk)).map
              (fun s => dayCost s.daily_stats d)).sum)) := by
  have hsame0 : (initAggState today).daily_tokens.map Prod.fst =
      (initAggState today).daily_costs.map Prod.fst := by
    simp [initAggState]
  obtain ⟨a1, a2, a3, a4, a5, a6, a7, a8, a9⟩ :=
    aggFold_spec mem disk (today - 29) today projects (initAggState today) hsame0
  have hinit_tok : ∀ d ∈ windowDates today,
      (initAggState today).daily_tokens.lookup d = some (0, 0) := by
    intro d hd
    exact lookup_map_pair (fun _ => ((0 : Nat), (0 : Nat))) (windowDates today) d hd
  have hinit_cost : ∀ d ∈ windowDates today,
      (initAggState today).daily_costs.lookup d = some 0 := by
    intro d hd
    exact lookup_map_pair (fun _ => (0 : ℚ)) (windowDates today) d hd
  unfold getGlobalStats finalAggState
  dsimp only
  refine ⟨rfl, ?_, ?_, ?_, ?_, ?_, ?_, ?_, ?_⟩
  · rw [a1]
    simp [initAggState]
  · rw [a2]
    simp [initAggState]
  · rw [a3]
    simp [initAggState]
  · rw [a4]
    simp [initAggState]
  · rw [a5]
    simp [initAggState]
  · rw [a6]
    simp [initAggState]
  · refine map_congr_mem ?_
    intro d hd
    obtain ⟨hb1, hb2⟩ := windowDates_bounds hd
    obtain ⟨w1, w2⟩ := a9 d hb1 hb2
    rw [w1, hinit_tok d hd]
    dsimp only [Option.map, Option.getD]
    simp
  · rw [List.map_map]
    refine map_congr_mem ?_
    intro d hd
    obtain ⟨hb1, hb2⟩ := windowDates_bounds hd
    obtain ⟨w1, w2⟩ := a9 d hb1 hb2
    dsimp only [Function.comp]
    rw [w2, hinit_cost d hd]
    dsimp only [Option.map, Option.getD]
    simp


/-! ### C7 / C10 : interaction grouping, split-interaction repair and the
flattened message output (`processor.py`, `Interaction`,
`_group_into_interactions`, `_handle_split_interactions`,
`_interactions_to_messages`) -/

/-- The tool-result test of `_group_into_interactions` for a `user`-typed
message: the raw content blocks are checked first (when the preserved
`_raw_data.message.content` list is non-empty); otherwise the processed
`has_tool_result` flag, then the `[Tool Result:` / `[Tool Error:` content
prefixes. -/
def isToolResult (m : Message) : Bool :=
  match m.raw with
  | some r =>
    if r.content ≠ [] then r.content.any (fun b => b.btype == "tool_result")
    else if m.has_tool_result then true
    else strBegins m.content "[Tool Result:" || strBegins m.content "[Tool Error:"
  | none =>
    if m.has_tool_result then true
    else strBegins m.content "[Tool Result:" || strBegins m.content "[Tool Error:"

/-- `msg_type == "user" and not is_tool_result`: a real user message that
opens a new interaction. -/
def realUser (m : Message) : Bool :=
  m.type == "user" && !(isToolResult m)

/-- The `Interaction` object: the fields read or written by
`_group_into_interactions`, `_handle_split_interactions` and
`_interactions_to_messages`. -/
structure PInteraction where
  user_message : Message
  assistant_messages : List Message := []
  tool_results : List Message := []
  session_id : String := ""
  start_time : String := ""
  end_time : String := ""
  model : String := "N/A"
  tools_used : List ToolUse := []
  final_tool_count : Nat := 0
  has_task_tool : Bool := false
deriving DecidableEq

/-- `Interaction.__init__(user_message)`. -/
def mkInteraction (u : Message) : PInteraction :=
  { user_message := u,
    session_id := u.session_id,
    start_time := u.timestamp,
    end_time := u.timestamp }

/-- The raw `tool_use` extraction loop of `add_assistant_message`. -/
def rawToolStep (acc : PInteraction) (b : RawBlock) : PInteraction :=
  if b.btype == "tool_use" then
    { acc with
      tools_used := acc.tools_used ++ [{ name := b.name, input := b.input, id := b.id }],
      has_task_tool := acc.has_task_tool || (b.name == "Task") }
  else acc

/-- The processed-`tools` fallback loop of `add_assistant_message`. -/
def procToolStep (acc : PInteraction) (t : ToolUse) : PInteraction :=
  { acc with
    tools_used := acc.tools_used ++ [t],
    has_task_tool := acc.has_task_tool || (t.name == "Task") }

/-- The model update of `add_assistant_message` (only when the current model
is the `"N/A"` placeholder; a truthy non-`"N/A"` processed model wins, then
the raw message's model). -/
def updatedModel (it : PInteraction) (m : Message) : String :=
  if it.model = "N/A" then
    if m.model ≠ "" ∧ m.model ≠ "N/A" then m.model
    else
      match m.raw with
      | some r => if r.model ≠ "" then r.model else it.model
      | none => it.model
  else it.model

/-- `Interaction.add_assistant_message`: append the message, bump `end_time`
on a truthy timestamp, update the model, then extract tools from the raw
content blocks (falling back to the processed `tools` list). -/
def addAssistantMessage (it : PInteraction) (m : Message) : PInteraction :=
  let it2 : PInteraction := { it with
    assistant_messages := it.assistant_messages ++ [m],
    end_time := if m.timestamp ≠ "" then m.timestamp else it.end_time,
    model := updatedModel it m }
  match m.raw with
  | some r =>
    if r.content ≠ [] then r.content.foldl rawToolStep it2
    else m.tools.foldl procToolStep it2
  | none => m.tools.foldl procToolStep it2

/-- `Interaction.add_tool_result`. -/
def addToolResult (it : PInteraction) (m : Message) : PInteraction :=
  { it with
    tool_results := it.tool_results ++ [m],
    end_time := if m.timestamp ≠ "" then m.timestamp else it.end_time }

/-- Body of the grouping loop for a message that does not open a new
interaction, applied to the current open interaction. -/
def extendStep (it : PInteraction) (m : Message) : PInteraction :=
  if m.type == "assistant" then addAssistantMessage it m
  else if m.type == "user" && isToolResult m then addToolResult it m
  else it

/-- Extension of an open interaction by a run of non-user messages. -/
def extendFold (it : PInteraction) (l : List Message) : PInteraction :=
  l.foldl extendStep it

/-- One step of `_group_into_interactions`: a real user message closes the
current interaction (if any) and opens a new one; any other message is folded
into the current interaction when one exists and is dropped otherwise. -/
def groupStep (acc : List PInteraction × Option PInteraction) (m : Message) :
    List PInteraction × Option PInteraction :=
  if realUser m then
    match acc.2 with
    | some cur => (acc.1 ++ [cur], some (mkInteraction m))
    | none => (acc.1, some (mkInteraction m))
  else
    match acc.2 with
    | some cur => (acc.1, some (extendStep cur m))
    | none => acc

/-- The trailing `if current_interaction: interactions.append(...)`. -/
def groupFinish (p : List PInteraction × Option PInteraction) : List PInteraction :=
  match p.2 with
  | some cur => p.1 ++ [cur]
  | none => p.1

/-- `_group_into_interactions`. -/
def groupIntoInteractions (messages : List Message) : List PInteraction :=
  groupFinish (messages.foldl groupStep ([], none))

/-- Python dict truthiness of an interaction's `user_message`: processed
message dicts always carry keys (`type`, `timestamp`, ...), so the dict is
never empty and `not interaction.user_message` is always `False`. -/
def msgTruthy (m : Message) : Bool := true

/-- `interactions_by_session[session_id]` (a `defaultdict(list)` filled in
list order). -/
def interactionsBySession (its : List PInteraction) (sid : String) : List PInteraction :=
  its.filter (fun it => it.session_id == sid)

/-- Iteration order of the `defaultdict`: session ids in order of first
appearance. -/
def firstOccur (l : List String) : List String :=
  l.foldl (fun acc s => if acc.contains s then acc else acc ++ [s]) []

/-- The `for other_session_id, other_metadata in session_metadata.items()`
search with `break`: the first session whose `index` equals `idx + 1`. -/
def findNextSession (metadata : List (String × Int)) (idx : Int) : Option String :=
  (metadata.find? (fun p => p.2 == idx + 1)).map (fun p => p.1)

/-- One session of `_handle_split_interactions`: when this session's last
interaction has no assistant response, look up the next-indexed session and
merge its leading interaction in — but only if that interaction has assistant
messages and a falsy `user_message` (the latter never holds, see
`handleSplitInteractions_id`). -/
def handleSplitSession (metadata : List (String × Int)) (its : List PInteraction)
    (sid : String) : List PInteraction :=
  match (interactionsBySession its sid).getLast? with
  | none => its
  | some last =>
    if last.assistant_messages = [] then
      match findNextSession metadata ((metadata.lookup sid).getD (-1)) with
      | none => its
      | some nextSid =>
        match (interactionsBySession its nextSid).head? with
        | none => its
        | some first =>
          if first.assistant_messages ≠ [] ∧ msgTruthy first.user_message = false then
            (its.map (fun it =>
              if it = last then
                (first.tool_results.foldl addToolResult
                  (first.assistant_messages.foldl addAssistantMessage last))
              else it)).erase first
          else its
    else its

/-- `_handle_split_interactions`. -/
def handleSplitInteractions (metadata : List (String × Int)) (its : List PInteraction) :
    List PInteraction :=
  (firstOccur (its.map (fun it => it.session_id))).foldl (handleSplitSession metadata) its

/-- `_interactions_to_messages`: per interaction, a copy of the user message
decorated with the reconciled tool count, model and step count, followed by
the assistant messages and the tool results. -/
def interactionsToMessages (its : List PInteraction) : List Message :=
  its.foldl (fun msgs it =>
    msgs ++ [{ it.user_message with
        interaction_tool_count := it.final_tool_count,
        interaction_model := it.model,
        interaction_assistant_steps := it.assistant_messages.length }]
      ++ it.assistant_messages ++ it.tool_results) []


/-! ### Lemmas about interaction grouping -/

theorem rawToolFold_fields (l : List RawBlock) :
    ∀ acc : PInteraction, ((l.foldl rawToolStep acc).user_message = acc.user_message ∧
      (l.foldl rawToolStep acc).assistant_messages = acc.assistant_messages ∧
      (l.foldl rawToolStep acc).tool_results = acc.tool_results) := by
  induction l with
  | nil =>
    intro acc
    exact ⟨rfl, rfl, rfl⟩
  | cons b l ih =>
    intro acc
    rw [List.foldl_cons]
    obtain ⟨h1, h2, h3⟩ := ih (rawToolStep acc b)
    have hstep : (rawToolStep acc b).user_message = acc.user_message ∧
        (rawToolStep acc b).assistant_messages = acc.assistant_messages ∧
        (rawToolStep acc b).tool_results = acc.tool_results := by
      unfold rawToolStep
      by_cases hb : (b.btype == "tool_use") = true
      · rw [if_pos hb]
        exact ⟨rfl, rfl, rfl⟩
      · rw [if_neg hb]
        exact ⟨rfl, rfl, rfl⟩
    exact ⟨h1.trans hstep.1, h2.trans hstep.2.1, h3.trans hstep.2.2⟩

theorem procToolFold_fields (l : List ToolUse) :
    ∀ acc : PInteraction, ((l.foldl procToolStep acc).user_message = acc.user_message ∧
      (l.foldl procToolStep acc).assistant_messages = acc.assistant_messages ∧
      (l.foldl procToolStep acc).tool_results = acc.tool_results) := by
  induction l with
  | nil =>
    intro acc
    exact ⟨rfl, rfl, rfl⟩
  | cons t l ih =>
    intro acc
    rw [List.foldl_cons]
    obtain ⟨h1, h2, h3⟩ := ih (procToolStep acc t)
    exact ⟨h1, h2, h3⟩

theorem addAssistantMessage_fields (it : PInteraction) (m : Message) :
    (addAssistantMessage it m).user_message = it.user_message ∧
    (addAssistantMessage it m).assistant_messages = it.assistant_messages ++ [m] ∧
    (addAssistantMessage it m).tool_results = it.tool_results := by
  unfold addAssistantMessage
  cases hr : m.raw with
  | none =>
    dsimp only
    exact ⟨(procToolFold_fields m.tools _).1, (procToolFold_fields m.tools _).2.1,
      (procToolFold_fields m.tools _).2.2⟩
  | some r =>
    dsimp only
    by_cases hc : r.content ≠ []
    · rw [if_pos hc]
      exact ⟨(rawToolFold_fields r.content _).1, (rawToolFold_fields r.content _).2.1,
        (rawToolFold_fields r.content _).2.2⟩
    · rw [if_neg hc]
      exact ⟨(procToolFold_fields m.tools _).1, (procToolFold_fields m.tools _).2.1,
        (procToolFold_fields m.tools _).2.2⟩

theorem extendStep_fields (it : PInteraction) (m : Message) :
    (extendStep it m).user_message = it.user_message ∧
    (extendStep it m).assistant_messages = it.assistant_messages ++
      (if m.type == "assistant" then [m] else []) ∧
    (extendStep it m).tool_results = it.tool_results ++
      (if m.type == "assistant" then []
       else if m.type == "user" && isToolResult m then [m] else []) := by
  unfold extendStep
  by_cases h1 : (m.type == "assistant") = true
  · rw [if_pos h1, if_pos h1, if_pos h1]
    obtain ⟨f1, f2, f3⟩ := addAssistantMessage_fields it m
    refine ⟨f1, f2, f3.trans ?_⟩
    rw [List.append_nil]
  · rw [if_neg h1, if_neg h1, if_neg h1]
    by_cases h2 : (m.type == "user" && isToolResult m) = true
    · rw [if_pos h2, if_pos h2]
      refine ⟨rfl, ?_, rfl⟩
      rw [List.append_nil]
      rfl
    · rw [if_neg h2, if_neg h2]
      exact ⟨rfl, by rw [List.append_nil], by rw [List.append_nil]⟩

theorem extendFold_user (l : List Message) :
    ∀ it : PInteraction, (extendFold it l).user_message = it.user_message := by
  induction l with
  | nil =>
    intro it
    rfl
  | cons m l ih =>
    intro it
    unfold extendFold at *
    rw [List.foldl_cons]
    exact (ih (extendStep it m)).trans (extendStep_fields it m).1

theorem extendFold_assistants (l : List Message) :
    ∀ it : PInteraction, (extendFold it l).assistant_messages =
      it.assistant_messages ++ l.filter (fun m => m.type == "assistant") := by
  induction l with
  | nil =>
    intro it
    rw [List.filter_nil, List.append_nil]
    rfl
  | cons m l ih =>
    intro it
    unfold extendFold at *
    rw [List.foldl_cons, List.filter_cons, ih (extendStep it m), (extendStep_fields it m).2.1]
    by_cases hm : (m.type == "assistant") = true
    · rw [if_pos hm, if_pos hm, List.append_assoc]
      rfl
    · rw [if_neg hm, if_neg hm, List.append_nil]

theorem groupStep_done (m : Message) (d : List PInteraction) (c : Option PInteraction) :
    groupStep (d, c) m = (d ++ (groupStep ([], c) m).1, (groupStep ([], c) m).2) := by
  unfold groupStep
  by_cases h : realUser m = true
  · rw [if_pos h, if_pos h]
    cases c with
    | none =>
      dsimp only
      rw [List.append_nil]
    | some cur =>
      dsimp only
      rw [List.nil_append]
  · rw [if_neg h, if_neg h]
    cases c with
    | none =>
      dsimp only
      rw [List.append_nil]
    | some cur =>
      dsimp only
      rw [List.append_nil]

theorem groupFold_done (l : List Message) :
    ∀ (d : List PInteraction) (c : Option PInteraction),
      l.foldl groupStep (d, c) =
        (d ++ (l.foldl groupStep ([], c)).1, (l.foldl groupStep ([], c)).2) := by
  induction l with
  | nil =>
    intro d c
    rw [List.foldl_nil, List.foldl_nil, List.append_nil]
  | cons m l ih =>
    intro d c
    rw [List.foldl_cons, List.foldl_cons, groupStep_done m d c]
    cases hs : groupStep ([], c) m with
    | mk s1 s2 =>
      rw [ih (d ++ s1) s2, ih s1 s2, List.append_assoc]

theorem groupFold_noUser_some (l : List Message) :
    ∀ (d : List PInteraction) (it : PInteraction), (∀ m ∈ l, realUser m = false) →
      l.foldl groupStep (d, some it) = (d, some (extendFold it l)) := by
  induction l with
  | nil =>
    intro d it h
    rfl
  | cons m l ih =>
    intro d it h
    rw [List.foldl_cons]
    have hm : realUser m = false := h m (List.mem_cons_self m l)
    have hstep : groupStep (d, some it) m = (d, some (extendStep it m)) := by
      unfold groupStep
      rw [hm]
      simp only [Bool.false_eq_true, if_false]
    rw [hstep]
    exact ih d (extendStep it m) (fun x hx => h x (List.mem_cons_of_mem m hx))

theorem groupFold_noUser_none (l : List Message) :
    ∀ d : List PInteraction, (∀ m ∈ l, realUser m = false) →
      l.foldl groupStep (d, none) = (d, none) := by
  induction l with
  | nil =>
    intro d h
    rfl
  | cons m l ih =>
    intro d h
    rw [List.foldl_cons]
    have hm : realUser m = false := h m (List.mem_cons_self m l)
    have hstep : groupStep (d, none) m = (d, none) := by
      unfold groupStep
      rw [hm]
      simp only [Bool.false_eq_true, if_false]
    rw [hstep]
    exact ih d (fun x hx => h x (List.mem_cons_of_mem m hx))

theorem groupFinish_some (d : List PInteraction) (x : PInteraction) :
    groupFinish (d, some x) = d ++ [x] := rfl

theorem groupFinish_none (d : List PInteraction) :
    groupFinish (d, none) = d := rfl

theorem groupFold_users (l : List Message) :
    ∀ (d : List PInteraction) (c : Option PInteraction),
      (∀ it ∈ d, realUser it.user_message = true) →
      (∀ it, c = some it → realUser it.user_message = true) →
      (∀ it ∈ (l.foldl groupStep (d, c)).1, realUser it.user_message = true) ∧
      (∀ it, (l.foldl groupStep (d, c)).2 = some it → realUser it.user_message = true) := by
  induction l with
  | nil =>
    intro d c hd hc
    exact ⟨hd, hc⟩
  | cons m l ih =>
    intro d c hd hc
    rw [List.foldl_cons]
    have hstep : (∀ it ∈ (groupStep (d, c) m).1, realUser it.user_message = true) ∧
        (∀ it, (groupStep (d, c) m).2 = some it → realUser it.user_message = true) := by
      unfold groupStep
      by_cases h : realUser m = true
      · rw [if_pos h]
        cases c with
        | none =>
          refine ⟨hd, ?_⟩
          intro it hit
          injection hit with hit
          rw [← hit]
          exact h
        | some cur =>
          dsimp only
          refine ⟨?_, ?_⟩
          · intro it hit
            rcases List.mem_append.mp hit with h1 | h1
            · exact hd it h1
            · rw [List.mem_singleton] at h1
              rw [h1]
              exact hc cur rfl
          · intro it hit
            injection hit with hit
            rw [← hit]
            exact h
      · rw [if_neg h]
        cases c with
        | none => exact ⟨hd, hc⟩
        | some cur =>
          dsimp only
          refine ⟨hd, ?_⟩
          intro it hit
          injection hit with hit
          rw [← hit, (extendStep_fields cur m).1]
          exact hc cur rfl
    exact ih (groupStep (d, c) m).1 (groupStep (d, c) m).2 hstep.1 hstep.2

theorem groupIntoInteractions_users (l : List Message) :
    ∀ it ∈ groupIntoInteractions l, realUser it.user_message = true := by
  intro it hit
  unfold groupIntoInteractions groupFinish at hit
  obtain ⟨h1, h2⟩ := groupFold_users l [] none
    (fun x hx => absurd hx (List.not_mem_nil x))
    (fun x hx => Option.noConfusion hx)
  cases hres : l.foldl groupStep ([], none) with
  | mk done cur =>
    rw [hres] at hit h1 h2
    cases cur with
    | none =>
      dsimp only at hit h1
      exact h1 it hit
    | some x =>
      dsimp only at hit h1 h2
      rcases List.mem_append.mp hit with hh | hh
      · exact h1 it hh
      · rw [List.mem_singleton] at hh
        rw [hh]
        exact h2 x rfl

theorem handleSplitSession_id (metadata : List (String × Int)) (its : List PInteraction)
    (sid : String) : handleSplitSession metadata its sid = its := by
  unfold handleSplitSession
  cases hlast : (interactionsBySession its sid).getLast? with
  | none => rfl
  | some last =>
    dsimp only
    by_cases hempty : last.assistant_messages = []
    · rw [if_pos hempty]
      cases hnext : findNextSession metadata ((metadata.lookup sid).getD (-1)) with
      | none => rfl
      | some nextSid =>
        dsimp only
        cases hfirst : (interactionsBySession its nextSid).head? with
        | none => rfl
        | some first =>
          dsimp only
          rw [if_neg (fun h => Bool.noConfusion h.2)]
    · rw [if_neg hempty]

theorem handleSplitInteractions_id (metadata : List (String × Int))
    (its : List PInteraction) : handleSplitInteractions metadata its = its := by
  unfold handleSplitInteractions
  generalize firstOccur (its.map (fun it => it.session_id)) = sids
  induction sids with
  | nil => rfl
  | cons s sids ih =>
    rw [List.foldl_cons, handleSplitSession_id]
    exact ih


theorem filter_false_nil {α : Type} {p : α → Bool} {l : List α}
    (h : ∀ m ∈ l, p m = false) : l.filter p = [] := by
  induction l with
  | nil => rfl
  | cons x xs ih =>
    rw [List.filter_cons,
      if_neg (by rw [h x (List.mem_cons_self x xs)]; exact Bool.noConfusion)]
    exact ih (fun m hm => h m (List.mem_cons_of_mem x hm))

/-- C7: for a stream `a ++ [u] ++ b ++ pre ++ rest` in which `u` is the real
user message opening session 1's last interaction, `b` (the remainder of
session 1) contains no assistant message and no real user message, `pre`
(session 2's leading messages, e.g. after a compact summary) contains no real
user message, and `rest` is empty or starts with a real user message: the
grouping phase emits exactly one interaction for `u`, carrying `u` as its
user message and session 2's leading assistant messages as its replies; every
emitted interaction has a real user message (no orphaned assistant-only
interaction); and `_handle_split_interactions` leaves the list unchanged
(its merge branch requires a falsy `user_message`, which never occurs). -/
theorem c7_split_interaction_merge (a b pre rest : List Message) (u : Message)
    (metadata : List (String × Int))
    (hu : realUser u = true)
    (hb : ∀ m ∈ b, realUser m = false ∧ m.type ≠ "assistant")
    (hpre : ∀ m ∈ pre, realUser m = false)
    (hrest : rest = [] ∨ ∃ v rest2, rest = v :: rest2 ∧ realUser v = true) :
    groupIntoInteractions (a ++ u :: ((b ++ pre) ++ rest)) =
      groupIntoInteractions a ++ [extendFold (mkInteraction u) (b ++ pre)]
        ++ groupIntoInteractions rest ∧
    (extendFold (mkInteraction u) (b ++ pre)).user_message = u ∧
    (extendFold (mkInteraction u) (b ++ pre)).assistant_messages =
      pre.filter (fun m => m.type == "assistant") ∧
    (∀ it ∈ groupIntoInteractions (a ++ u :: ((b ++ pre) ++ rest)),
      realUser it.user_message = true) ∧
    handleSplitInteractions metadata
      (groupIntoInteractions (a ++ u :: ((b ++ pre) ++ rest)))
      = groupIntoInteractions (a ++ u :: ((b ++ pre) ++ rest)) := by
  have hbp : ∀ m ∈ b ++ pre, realUser m = false := by
    intro m hm
    rcases List.mem_append.mp hm with h | h
    · exact (hb m h).1
    · exact hpre m h
  have hassts : (extendFold (mkInteraction u) (b ++ pre)).assistant_messages =
      pre.filter (fun m => m.type == "assistant") := by
    rw [extendFold_assistants (b ++ pre) (mkInteraction u), List.filter_append]
    have hbnil : b.filter (fun m => m.type == "assistant") = [] := by
      refine filter_false_nil ?_
      intro m hm
      cases hx : m.type == "assistant"
      · rfl
      · exact absurd (by simpa using hx) (hb m hm).2
    rw [hbnil, List.nil_append]
    have hmk : (mkInteraction u).assistant_messages = ([] : List Message) := rfl
    rw [hmk, List.nil_append]
  have hmain : groupIntoInteractions (a ++ u :: ((b ++ pre) ++ rest)) =
      groupIntoInteractions a ++ [extendFold (mkInteraction u) (b ++ pre)]
        ++ groupIntoInteractions rest := by
    unfold groupIntoInteractions
    rw [List.foldl_append, List.foldl_cons]
    cases hS : a.foldl groupStep ([], none) with
    | mk A C =>
      have hu_step : groupStep (A, C) u = (groupFinish (A, C), some (mkInteraction u)) := by
        unfold groupStep groupFinish
        rw [if_pos hu]
        cases C with
        | none => rfl
        | some c => rfl
      rw [hu_step, List.foldl_append,
        groupFold_noUser_some (b ++ pre) (groupFinish (A, C)) (mkInteraction u) hbp]
      rcases hrest with hre | ⟨v, rest2, hre, hv⟩
      · subst hre
        rw [List.foldl_nil]
        have h3 : groupFinish ((([] : List Message)).foldl groupStep ([], none)) = [] := rfl
        rw [groupFinish_some, h3, List.append_nil]
      · subst hre
        have hv_step : groupStep (groupFinish (A, C),
            some (extendFold (mkInteraction u) (b ++ pre))) v =
            (groupFinish (A, C) ++ [extendFold (mkInteraction u) (b ++ pre)],
             some (mkInteraction v)) := by
          unfold groupStep
          rw [if_pos hv]
        have hv_step0 : groupStep (([] : List PInteraction), none) v =
            ([], some (mkInteraction v)) := by
          unfold groupStep
          rw [if_pos hv]
        rw [List.foldl_cons, hv_step, List.foldl_cons, hv_step0,
          groupFold_done rest2
            (groupFinish (A, C) ++ [extendFold (mkInteraction u) (b ++ pre)])
            (some (mkInteraction v))]
        cases hT : rest2.foldl groupStep ([], some (mkInteraction v)) with
        | mk T1 T2 =>
          cases T2 with
          | none =>
            rw [groupFinish_none, groupFinish_none, List.append_assoc]
          | some t =>
            rw [groupFinish_some, groupFinish_some]
            simp [List.append_assoc]
  exact ⟨hmain, extendFold_user (b ++ pre) (mkInteraction u), hassts,
    groupIntoInteractions_users _, handleSplitInteractions_id metadata _⟩

/-- The real user message of the C7 / C10 witnesses. -/
def c7u : Message :=
  { type := "user", content := "do it", session_id := "s1",
    timestamp := "2024-01-01T10:00:00Z" }

/-- The orphan assistant message of the C7 / C10 witnesses. -/
def c7a : Message :=
  { type := "assistant", content := "done", session_id := "s2",
    timestamp := "2024-01-01T10:00:05Z", model := "claude-3" }

/-- Session metadata of the C7 witness. -/
def c7meta : List (String × Int) := [("s1", 0), ("s2", 1)]

/-- C7, witness: at `a = b = rest = []`, `pre = [c7a]`, the hypotheses hold
and the grouped output is the single merged interaction. -/
theorem c7_split_interaction_merge_witness :
    realUser c7u = true ∧ realUser c7a = false ∧
    groupIntoInteractions ([] ++ c7u :: ((([] : List Message) ++ [c7a]) ++ [])) =
      groupIntoInteractions [] ++ [extendFold (mkInteraction c7u) ([] ++ [c7a])]
        ++ groupIntoInteractions [] :=
  ⟨by decide, by decide,
   (c7_split_interaction_merge [] [] [c7a] [] c7u c7meta (by decide)
     (fun m hm => absurd hm (List.not_mem_nil m)) (by decide) (Or.inl rfl)).1⟩

/-- C10: any run of messages with no real (non-tool-result) user message at
the head of the stream is assigned to no interaction: grouping yields exactly
the interactions of the remaining stream, and the flattened message output
of `_interactions_to_messages` is unchanged. -/
theorem c10_preamble_dropped (pre rest : List Message)
    (hpre : ∀ m ∈ pre, realUser m = false) :
    groupIntoInteractions (pre ++ rest) = groupIntoInteractions rest ∧
    interactionsToMessages (groupIntoInteractions (pre ++ rest)) =
      interactionsToMessages (groupIntoInteractions rest) := by
  have h : groupIntoInteractions (pre ++ rest) = groupIntoInteractions rest := by
    unfold groupIntoInteractions
    rw [List.foldl_append, groupFold_noUser_none pre [] hpre]
  exact ⟨h, by rw [h]⟩

/-- A leading tool-result user message for the C10 witness. -/
def c10tr : Message :=
  { type := "user", content := "[Tool Result: ok]", has_tool_result := true,
    session_id := "s1" }

/-- A real user message for the C10 witness. -/
def c10u : Message :=
  { type := "user", content := "hello", session_id := "s1",
    timestamp := "2024-01-01T00:00:01Z" }

/-- C10, witness: an assistant message and a tool-result user message ahead
of the first real user message are dropped from the grouped interactions and
from the flattened output. -/
theorem c10_preamble_dropped_witness :
    realUser c7a = false ∧ realUser c10tr = false ∧
    groupIntoInteractions ([c7a, c10tr] ++ [c10u]) = groupIntoInteractions [c10u] ∧
    interactionsToMessages (groupIntoInteractions ([c7a, c10tr] ++ [c10u])) =
      interactionsToMessages (groupIntoInteractions [c10u]) :=
  ⟨by decide, by decide,
   (c10_preamble_dropped [c7a, c10tr] [c10u] (by decide)).1,
   (c10_preamble_dropped [c7a, c10tr] [c10u] (by decide)).2⟩

end Sniffly
